import Mathlib

/-!
Verification development for the mindmap layout engine.

The definitions below are a shallow embedding of the layout engine found in
the repository (the refined engine variant in src/unnamed/part_004, which the
specification designates as authoritative; where the two engine variants
agree the embedding covers both, and the one place they differ and matters
is embedded twice), of the drag handler in src/src/App.tsx, and of the edge
gap computation in src/src/components/canvas/MindMapCanvas.tsx.

Modelling conventions:
- JavaScript numbers are modelled as rationals; all concrete inputs used in
  the theorems are exact in both settings.
- The text measurement oracle (src/unnamed/part_001 measureText), Math.cos,
  Math.sin, Math.atan2 and the normalizeAngle helper are taken as oracle
  parameters: the engine only pipes their outputs through, and none of the
  properties settled here depend on their values.
- Mutation of layout nodes is re-expressed as pure tree rebuilding; the
  collision resolver, which mutates a flat array of aliased nodes, is
  modelled as a state transformer on a position store indexed by node id
  (ids are unique by the documented data-model invariant).
-/

namespace Mindmap

/-- Source tree node (types.ts MindMapNode): id, label text (abstracted to a
token, it is only passed to the measurement oracle), optional icon flag,
optional collapsed flag, and the ordered children list. -/
inductive MindMapNode : Type where
  | mk (id : Nat) (text : Nat) (icon : Bool) (collapsed : Bool)
       (children : List MindMapNode)

def MindMapNode.id : MindMapNode → Nat
  | .mk i _ _ _ _ => i

def MindMapNode.text : MindMapNode → Nat
  | .mk _ t _ _ _ => t

def MindMapNode.icon : MindMapNode → Bool
  | .mk _ _ ic _ _ => ic

def MindMapNode.collapsed : MindMapNode → Bool
  | .mk _ _ _ c _ => c

def MindMapNode.children : MindMapNode → List MindMapNode
  | .mk _ _ _ _ cs => cs

/-- The slice of MindMapConfig (types.ts) consumed by the layout engine:
style.rootFontSize, typography.levelFontSizes / fontFamily / fontWeight
(the last two abstracted to tokens for the oracle), style.nodePaddingX/Y,
structure.horizontalSpacing / verticalSpacing / maxDepth, export.padding. -/
structure MindMapConfig where
  rootFontSize : ℚ
  levelFontSizes : List ℚ
  fontFamily : Nat
  fontWeight : Nat
  nodePaddingX : ℚ
  nodePaddingY : ℚ
  horizontalSpacing : ℚ
  verticalSpacing : ℚ
  maxDepth : Nat
  exportPadding : ℚ

/-- Token standing for the literal font weight used for the root
(calcNodeSize passes the string bold when depth is 0). -/
def boldWeight : Nat := 1

/-- Geometry and identity fields of a LayoutNode (types.ts): id, the source
node back-reference, top-left x/y, width/height, depth, and the ray angle
set by the radial strategy (undefined before assignment in the source,
which reads it with a zero default; initialized to zero here). The parent
back-reference is a non-owning lookup relation and is dropped. -/
structure LayoutData where
  id : Nat
  node : MindMapNode
  x : ℚ
  y : ℚ
  width : ℚ
  height : ℚ
  depth : Nat
  angle : ℚ

/-- A LayoutNode: its flat data plus the ordered owned children. -/
inductive LayoutNode : Type where
  | mk (data : LayoutData) (children : List LayoutNode)

def LayoutNode.data : LayoutNode → LayoutData
  | .mk d _ => d

def LayoutNode.children : LayoutNode → List LayoutNode
  | .mk _ cs => cs

/-- An edge derived from a parent/child pair (collectEdges): the id pair
models the source's template string, source and target are the endpoints,
depth is the target's depth. -/
structure LayoutEdge where
  id : Nat × Nat
  source : LayoutNode
  target : LayoutNode
  depth : Nat

namespace Engine

/-- calcNodeSize (layoutEngine.ts 12-37, identical in part_004): font size is
the root size at depth 0 and otherwise indexes levelFontSizes clamped to its
last entry; the measurement oracle result is padded on both axes and a fixed
24-unit icon reservation is added when an icon is present. The oracle
argument order is (text, fontSize, fontFamily, fontWeight). -/
def calcNodeSize (measure : Nat → ℚ → Nat → Nat → ℚ × ℚ) (cfg : MindMapConfig)
    (node : MindMapNode) (depth : Nat) : ℚ × ℚ :=
  let fontSize := if depth = 0 then cfg.rootFontSize
    else cfg.levelFontSizes.getD (min depth (cfg.levelFontSizes.length - 1)) 0
  let fw := if depth = 0 then boldWeight else cfg.fontWeight
  let measured := measure node.text fontSize cfg.fontFamily fw
  let iconSpace : ℚ := if node.icon then 24 else 0
  (measured.1 + cfg.nodePaddingX * 2 + iconSpace,
   measured.2 + cfg.nodePaddingY * 2)

/-- buildLayoutTree (layoutEngine.ts 41-67, identical in part_004): builds a
LayoutNode with zeroed coordinates and recurses into the source children
only when the node is not collapsed and the depth is below maxDepth. -/
def buildLayoutTree (measure : Nat → ℚ → Nat → Nat → ℚ × ℚ)
    (cfg : MindMapConfig) : MindMapNode → Nat → LayoutNode
  | node, depth =>
    let sz := calcNodeSize measure cfg node depth
    let children :=
      if node.collapsed = false ∧ depth < cfg.maxDepth then
        node.children.attach.map
          (fun c => buildLayoutTree measure cfg c.1 (depth + 1))
      else []
    .mk { id := node.id, node := node, x := 0, y := 0,
          width := sz.1, height := sz.2, depth := depth, angle := 0 } children
decreasing_by
  have := List.sizeOf_lt_of_mem c.2
  cases node
  simp only [MindMapNode.children] at this
  simp only [MindMapNode.mk.sizeOf_spec]
  omega

/-- collectNodes (layoutEngine.ts 71-77): pre-order flattening. -/
def collectNodes : LayoutNode → List LayoutNode
  | .mk d cs => .mk d cs :: (cs.attach.map (fun c => collectNodes c.1)).flatten
decreasing_by
  have := List.sizeOf_lt_of_mem c.2
  simp only [LayoutNode.mk.sizeOf_spec]
  omega

/-- collectEdges (layoutEngine.ts 79-91): one edge per parent/child pair
followed by the child's own edges, in child order. -/
def collectEdges : LayoutNode → List LayoutEdge
  | .mk d cs =>
    (cs.attach.map (fun c =>
      ({ id := (d.id, c.1.data.id), source := .mk d cs, target := c.1,
         depth := c.1.data.depth } : LayoutEdge) :: collectEdges c.1)).flatten
decreasing_by
  have := List.sizeOf_lt_of_mem c.2
  simp only [LayoutNode.mk.sizeOf_spec]
  omega

/-- subtreeHeight (part_004 layoutHorizontalRight 188-193 and layoutTree
261-266, layoutEngine.ts likewise; the two call sites differ only in the
vSpacing value, passed here as a parameter): a leaf needs its own height
plus spacing, an inner node the larger of its children's total and its own
band. -/
def subtreeHeightWith (vS : ℚ) : LayoutNode → ℚ
  | .mk d cs =>
    if cs.length = 0 then d.height + vS
    else max ((cs.attach.map (fun c => subtreeHeightWith vS c.1)).sum)
             (d.height + vS)
decreasing_by
  have := List.sizeOf_lt_of_mem c.2
  simp only [LayoutNode.mk.sizeOf_spec]
  omega

mutual
/-- assign of layoutHorizontalRight (part_004 195-206) and the textually
identical assignRight of layoutTree (part_004 293-304): places the node at
x, centers it in its vertical band, and walks the children with a running
cumulative y offset. -/
def assignH (hS vS : ℚ) : LayoutNode → ℚ → ℚ → LayoutNode
  | .mk d cs, x, yStart =>
    let totalH := subtreeHeightWith vS (.mk d cs)
    .mk { d with x := x, y := yStart + totalH / 2 - d.height / 2 }
       (assignHList hS vS cs (x + hS) yStart)

/-- The child loop of assign: each child is placed at the accumulated
childY, which then advances by the child's subtree height. -/
def assignHList (hS vS : ℚ) : List LayoutNode → ℚ → ℚ → List LayoutNode
  | [], _, _ => []
  | c :: cs, childX, childY =>
    assignH hS vS c childX childY ::
      assignHList hS vS cs childX (childY + subtreeHeightWith vS c)
end

/-- layoutHorizontalRight (part_004 184-210): derived spacings, then assign
from x = 0 with the root band centered on the origin. -/
def layoutHorizontalRight (cfg : MindMapConfig) (root : LayoutNode) : LayoutNode :=
  let hS := cfg.horizontalSpacing + 80
  let vS := cfg.verticalSpacing + 8
  assignH hS vS root 0 (-(subtreeHeightWith vS root) / 2)

/-- The mirroring pass of layoutHorizontalLeft (part_004 214-220): the
source collects all nodes of the laid-out tree and rewrites x to -x - width
in place; structurally that is this map over the whole tree. -/
def mirrorLayoutX : LayoutNode → LayoutNode
  | .mk d cs =>
    .mk { d with x := -d.x - d.width } (cs.attach.map (fun c => mirrorLayoutX c.1))
decreasing_by
  have := List.sizeOf_lt_of_mem c.2
  simp only [LayoutNode.mk.sizeOf_spec]
  omega

/-- layoutHorizontalLeft (part_004 214-220): the right layout, mirrored. -/
def layoutHorizontalLeft (cfg : MindMapConfig) (root : LayoutNode) : LayoutNode :=
  mirrorLayoutX (layoutHorizontalRight cfg root)

/-- Comparison against the running best difference in layoutTree's split
loop; none models the initial Infinity, against which any value wins. -/
def ltOptQ (d : ℚ) : Option ℚ → Bool
  | none => true
  | some b => decide (d < b)

/-- The split-selection loop of layoutTree (part_004 275-287): walks the
weights accumulating the prefix sum; at index i the candidate split is
i + 1, with rightW the prefix sum and leftW the rest; a strictly smaller
absolute difference updates the best split. -/
def bestSplitGo (total : ℚ) : List ℚ → ℚ → Option ℚ → Nat → Nat → Nat
  | [], _, _, _, best => best
  | w :: rest, cumulative, bestDiff, i, best =>
    let cumulative' := cumulative + w
    let diff := |cumulative' - (total - cumulative')|
    if ltOptQ diff bestDiff then
      bestSplitGo total rest cumulative' (some diff) (i + 1) (i + 1)
    else
      bestSplitGo total rest cumulative' bestDiff (i + 1) best

/-- treeSplit (part_004 271-287): weights are the children's subtree
heights; the loop starts from the ceiling default split with bestDiff
Infinity. -/
def treeSplit (vS : ℚ) (root : LayoutNode) : Nat :=
  let weights := root.children.map (subtreeHeightWith vS)
  bestSplitGo weights.sum weights 0 none 0 ((root.children.length + 1) / 2)

/-- Absolute difference between the two sides of a prefix/suffix split of
the weight list at index k: the quantity layoutTree's loop minimizes. -/
def splitDiff (ws : List ℚ) (k : Nat) : ℚ :=
  |(ws.take k).sum - (ws.drop k).sum|

mutual
/-- assignLeft of layoutTree (part_004 306-317): like assign but the node's
right edge sits at x and recursion moves left. -/
def assignL (hS vS : ℚ) : LayoutNode → ℚ → ℚ → LayoutNode
  | .mk d cs, x, yStart =>
    let totalH := subtreeHeightWith vS (.mk d cs)
    .mk { d with x := x - d.width, y := yStart + totalH / 2 - d.height / 2 }
       (assignLList hS vS cs (x - hS) yStart)

/-- The child loop of assignLeft, with the running childY offset. -/
def assignLList (hS vS : ℚ) : List LayoutNode → ℚ → ℚ → List LayoutNode
  | [], _, _ => []
  | c :: cs, childX, childY =>
    assignL hS vS c childX childY ::
      assignLList hS vS cs childX (childY + subtreeHeightWith vS c)
end

/-- The right-group placement loop of layoutTree (part_004 320-326): every
group member starts at the same x, with a running rightY offset. -/
def placeGroupR (hS vS : ℚ) : List LayoutNode → ℚ → ℚ → List LayoutNode
  | [], _, _ => []
  | c :: cs, x, y =>
    assignH hS vS c x y :: placeGroupR hS vS cs x (y + subtreeHeightWith vS c)

/-- The left-group placement loop of layoutTree (part_004 329-335). -/
def placeGroupL (hS vS : ℚ) : List LayoutNode → ℚ → ℚ → List LayoutNode
  | [], _, _ => []
  | c :: cs, x, y =>
    assignL hS vS c x y :: placeGroupL hS vS cs x (y + subtreeHeightWith vS c)

/-- layoutTree (part_004 254-336): root centered at the origin; the first
treeSplit children go right and the rest go left, each group laid out with
the tidy recursion and independently vertically centered. The source keeps
the original child objects in their array order; since the right group is
exactly the prefix, appending the placed groups reproduces that order. -/
def layoutTree (cfg : MindMapConfig) (root : LayoutNode) : LayoutNode :=
  let hS := cfg.horizontalSpacing + 80
  let vS := cfg.verticalSpacing + 12
  match root with
  | .mk d cs =>
    let rx := -d.width / 2
    let s := treeSplit vS (.mk d cs)
    let rightChildren := cs.take s
    let leftChildren := cs.drop s
    let rightTotalH := (rightChildren.map (subtreeHeightWith vS)).sum
    let leftTotalH := (leftChildren.map (subtreeHeightWith vS)).sum
    .mk { d with x := rx, y := -d.height / 2 }
      (placeGroupR hS vS rightChildren (rx + d.width + hS * (1/2)) (-rightTotalH / 2)
        ++ placeGroupL hS vS leftChildren (rx - hS * (1/2)) (-leftTotalH / 2))

/-- Axis-aligned bounding box of a node list (computeBounds,
layoutEngine.ts 383-397, identical in part_004). -/
structure Bounds where
  minX : ℚ
  minY : ℚ
  maxX : ℚ
  maxY : ℚ

/-- One accumulation step of computeBounds's loop. -/
def boundsStep (b : Bounds) (n : LayoutNode) : Bounds :=
  ⟨min b.minX n.data.x, min b.minY n.data.y,
   max b.maxX (n.data.x + n.data.width), max b.maxY (n.data.y + n.data.height)⟩

/-- computeBounds (layoutEngine.ts 383-397): the source folds from plus and
minus Infinity; on a nonempty list that equals folding from the first
node's rectangle, which is how it is written here (the empty case, which
the source answers with infinities, returns a degenerate box and is not
used by any claim). -/
def computeBounds : List LayoutNode → Bounds
  | [] => ⟨0, 0, 0, 0⟩
  | n :: rest =>
    rest.foldl boundsStep
      ⟨n.data.x, n.data.y, n.data.x + n.data.width, n.data.y + n.data.height⟩

/-- Canvas size and render-time translation derived from the bounds
(computeLayout, layoutEngine.ts 427-439 and part_004 502-513). -/
structure LayoutMetrics where
  width : ℚ
  height : ℚ
  offsetX : ℚ
  offsetY : ℚ

/-- The final lines of computeLayout: width and height pad the bounding box
on both sides, and the offsets translate the minimum corner to padding. -/
def layoutMetrics (nodes : List LayoutNode) (padding : ℚ) : LayoutMetrics :=
  let bounds := computeBounds nodes
  ⟨bounds.maxX - bounds.minX + padding * 2,
   bounds.maxY - bounds.minY + padding * 2,
   -bounds.minX + padding,
   -bounds.minY + padding⟩

/-- computeSubtreeLeaves (part_004 95-100): leaf count of a subtree. -/
def computeSubtreeLeaves : LayoutNode → Nat
  | .mk _ cs =>
    if cs.length = 0 then 1
    else (cs.attach.map (fun c => computeSubtreeLeaves c.1)).sum
decreasing_by
  have := List.sizeOf_lt_of_mem c.2
  simp only [LayoutNode.mk.sizeOf_spec]
  omega

/-- radiusForDepth (part_004 109-111): ring radius with the part_004 base of
horizontalSpacing + 120 and 40 extra units per level beyond the first. -/
def radiusForDepth (cfg : MindMapConfig) (depth : Nat) : ℚ :=
  (depth : ℚ) * (cfg.horizontalSpacing + 120) +
    (if 1 < depth then ((depth : ℚ) - 1) * 40 else 0)

/-- minSubtreeAngle (part_004 114-126): the arc the node's own box subtends
at its ring (with a 20-unit margin, or the 0.3 constant when the radius is
zero), and for an inner node the larger of that arc and the sum of the
children's minimum angles. -/
def minSubtreeAngle (cfg : MindMapConfig) : LayoutNode → ℚ
  | .mk d cs =>
    let r := radiusForDepth cfg d.depth
    let nodeArc := if 0 < r then (max d.width d.height + 20) / r else 3 / 10
    if cs.length = 0 then nodeArc
    else max nodeArc ((cs.attach.map (fun c => minSubtreeAngle cfg c.1)).sum)
decreasing_by
  have := List.sizeOf_lt_of_mem c.2
  simp only [LayoutNode.mk.sizeOf_spec]
  omega

/-- The per-child allocations of positionChildren before normalization
(part_004 138-151): each child gets the larger of its leaf-proportional
share of the span and its minimum subtree angle. -/
def rawAllocatedAngles (cfg : MindMapConfig) (parent : LayoutNode)
    (startAngle endAngle : ℚ) : List ℚ :=
  let angleSpan := endAngle - startAngle
  let totalLeaves : ℚ :=
    ((parent.children.map (fun c => computeSubtreeLeaves c)).sum : Nat)
  parent.children.map (fun c =>
    max (((computeSubtreeLeaves c : ℚ) / totalLeaves) * angleSpan)
        (minSubtreeAngle cfg c))

/-- The allocations after normalization (part_004 153-158): when the raw
total exceeds the span every allocation is multiplied by the same
span/total factor. -/
def allocatedAngles (cfg : MindMapConfig) (parent : LayoutNode)
    (startAngle endAngle : ℚ) : List ℚ :=
  let angleSpan := endAngle - startAngle
  let raw := rawAllocatedAngles cfg parent startAngle endAngle
  if angleSpan < raw.sum then raw.map (fun a => a * (angleSpan / raw.sum))
  else raw

mutual
/-- positionChildren (part_004 128-177), recursion skeleton: computes the
allocations and runs the placement loop over the children. The parent's own
fields are untouched. -/
def positionChildren (cfg : MindMapConfig) (cosO sinO : ℚ → ℚ) :
    LayoutNode → ℚ → ℚ → LayoutNode
  | .mk d cs, startAngle, endAngle =>
    .mk d (placeChildren cfg cosO sinO cs
            (allocatedAngles cfg (.mk d cs) startAngle endAngle) startAngle)

/-- The placement loop of positionChildren (part_004 162-176): the child's
sector runs from the current angle over its allocation; the child sits at
the sector's midpoint angle on its ring and its subtree recurses with the
sector as its bounds. The source writes the child's x, y and angle before
recursing; the recursion never touches those fields of the child itself, so
updating them on the recursion's result is the same assignment. -/
def placeChildren (cfg : MindMapConfig) (cosO sinO : ℚ → ℚ) :
    List LayoutNode → List ℚ → ℚ → List LayoutNode
  | [], _, _ => []
  | c :: cs, as, currentAngle =>
    let a := as.headD 0
    let childEnd := currentAngle + a
    let midAngle := (currentAngle + childEnd) / 2
    let r := radiusForDepth cfg c.data.depth
    let placed := positionChildren cfg cosO sinO c currentAngle childEnd
    LayoutNode.mk
      { placed.data with
          x := cosO midAngle * r - c.data.width / 2,
          y := sinO midAngle * r - c.data.height / 2,
          angle := midAngle }
      placed.children
      :: placeChildren cfg cosO sinO cs as.tail childEnd
end

/-- The consecutive sectors carved from a start angle by an allocation
list: sector i runs from the running total to the running total plus its
allocation, exactly the currentAngle bookkeeping of the placement loop. -/
def sectors (s : ℚ) : List ℚ → List (ℚ × ℚ)
  | [] => []
  | a :: as => (s, s + a) :: sectors (s + a) as

/-- Mutable geometry of one node as seen by resolveCollisions: the fields
the resolver reads and the two it writes (x and y). Indexed by node id;
ids are unique by the data-model invariant. -/
structure Geom where
  x : ℚ
  y : ℚ
  width : ℚ
  height : ℚ
  depth : Nat

/-- A position store: the live state of all node objects, by id. -/
def GeomState : Type := Nat → Geom

/-- Write a node's x and y (the only fields resolveCollisions ever
assigns). -/
def setXY (σ : GeomState) (i : Nat) (x y : ℚ) : GeomState :=
  fun j => if j = i then { σ i with x := x, y := y } else σ j

/-- shiftSubtreeXY (part_004 448-454): adds the same delta to every
descendant of a node. The source recurses through the children lists; the
desc map hands each node the list of its descendants (each exactly once),
and the fold applies the delta to each of them. -/
def shiftSubtreeXY (desc : Nat → List Nat) (i : Nat) (dx dy : ℚ)
    (σ : GeomState) : GeomState :=
  (desc i).foldl (fun σc c => setXY σc c ((σc c).x + dx) ((σc c).y + dy)) σ

/-- The collision padding constant of resolveCollisions (part_004 346). -/
def collisionPadding : ℚ := 14

/-- The per-level sweep of the horizontal/tree branch of resolveCollisions
(part_004 425-436): walk adjacent pairs of the sorted level; when the
previous node's bottom plus padding overlaps the current node's top, push
the current node and its whole subtree down by the overlap. Reads are live:
the previous node's position is whatever the state says at that step. -/
def sweepY (desc : Nat → List Nat) : List Nat → GeomState → GeomState
  | [], σ => σ
  | [_], σ => σ
  | prev :: curr :: rest, σ =>
    let overlap := (σ prev).y + (σ prev).height + collisionPadding - (σ curr).y
    let σ1 :=
      if 0 < overlap then
        shiftSubtreeXY desc curr 0 overlap (setXY σ curr (σ curr).x ((σ curr).y + overlap))
      else σ
    sweepY desc (curr :: rest) σ1

/-- The per-level sweep of the vertical branch of resolveCollisions
(part_004 404-415): the same sweep transposed onto x. -/
def sweepX (desc : Nat → List Nat) : List Nat → GeomState → GeomState
  | [], σ => σ
  | [_], σ => σ
  | prev :: curr :: rest, σ =>
    let overlap := (σ prev).x + (σ prev).width + collisionPadding - (σ curr).x
    let σ1 :=
      if 0 < overlap then
        shiftSubtreeXY desc curr overlap 0 (setXY σ curr ((σ curr).x + overlap) (σ curr).y)
      else σ
    sweepX desc (curr :: rest) σ1

/-- The depth keys of the byDepth map in iteration order: a JavaScript Map
iterates keys in insertion order, which is the order of first appearance in
the node array. -/
def depthKeys (ids : List Nat) (σ : GeomState) : List Nat :=
  ids.foldl (fun acc i => if (σ i).depth ∈ acc then acc else acc ++ [(σ i).depth]) []

/-- The horizontal/tree branch of resolveCollisions (part_004 416-437):
group ids by depth in first-appearance order, sort each group by its
current y (Array.prototype.sort is stable, as is insertionSort), and run
the downward sweep. Depth never changes, so grouping against the initial
state matches the source's up-front map. -/
def resolveCollisionsHorizontal (ids : List Nat) (desc : Nat → List Nat)
    (σ0 : GeomState) : GeomState :=
  (depthKeys ids σ0).foldl
    (fun σc d =>
      let group := ids.filter (fun i => (σ0 i).depth = d)
      sweepY desc (List.insertionSort (fun a b => (σc a).y ≤ (σc b).y) group) σc)
    σ0

/-- The vertical branch of resolveCollisions (part_004 395-415): the same
grouping, sorted by current x, swept along x. -/
def resolveCollisionsVertical (ids : List Nat) (desc : Nat → List Nat)
    (σ0 : GeomState) : GeomState :=
  (depthKeys ids σ0).foldl
    (fun σc d =>
      let group := ids.filter (fun i => (σ0 i).depth = d)
      sweepX desc (List.insertionSort (fun a b => (σc a).x ≤ (σc b).x) group) σc)
    σ0

end Engine

namespace EngineV1

/-- minAngleForNode of the simpler engine variant
(src/src/engine/layoutEngine.ts 114-117): the node's bounding dimension
plus a 16-unit margin divided by the radius, or the 0.3 constant when the
radius is not positive. This variant applies the floor per node only, with
no descendant term. -/
def minAngleForNode (n : Mindmap.LayoutNode) (radius : ℚ) : ℚ :=
  let nodeSize := max n.data.width n.data.height + 16
  if 0 < radius then nodeSize / radius else 3 / 10

end EngineV1

namespace Spec

/-- Modelled from the spec's words (section 4.3 Radial): a floor equal to
the angle the node's bounding dimension plus a margin subtends at its
radius, with the 0.3 radian constant inside the maximum and the whole
maximum divided by the radius. This is the formula the claim asserts for
the floor and exists only to be compared against the source's
minSubtreeAngle and minAngleForNode. -/
def claimedAngleFloor (n : Mindmap.LayoutNode) (radius margin : ℚ) : ℚ :=
  max (max n.data.width n.data.height + margin) (3 / 10) / radius

end Spec

namespace App

/-- One entry of the nodeMap lookup built in App.tsx 81-87 from
layout.nodes: position, size and the child id list of a layout node. Since
the map is keyed by the node's own id and holds one entry per layout node,
the wouldCrossEdges iteration over layout.nodes is an iteration over these
entries. -/
structure WNode where
  id : Nat
  x : ℚ
  y : ℚ
  w : ℚ
  h : ℚ
  children : List Nat

/-- Map lookup by id (nodeMap.get); ids are unique by the data-model
invariant, so the first match is the entry. -/
def lookupW (nodes : List WNode) (i : Nat) : Option WNode :=
  nodes.find? (fun n => n.id == i)

/-- The position override map (App.tsx NodePositions): a partial map from
node id to a manually assigned position. -/
def Overrides : Type := Nat → Option (ℚ × ℚ)

/-- Functional update of an override map, as the object spread does. -/
def setOv (m : Overrides) (k : Nat) (v : ℚ × ℚ) : Overrides :=
  fun i => if i = k then some v else m i

/-- The i before j pair scan of wouldCrossEdges (App.tsx 137-149), with the
same short-circuit answer. -/
def pairsAny {α : Type} (f : α → α → Bool) : List α → Bool
  | [] => false
  | x :: xs => xs.any (f x) || pairsAny f xs

/-- wouldCrossEdges (App.tsx 111-154): for every parent with at least two
children that has a baseline order entry, recompute each child's angle
under the proposed overrides (falling back to the layout position) and
report a crossing when any sibling pair's baseline angular difference and
proposed angular difference fall on different sides of zero. atanO models
Math.atan2 with argument order (dy, dx) and normO models the normalizeAngle
helper; the control flow settled here holds for any oracle values. -/
def wouldCrossEdges (atanO : ℚ → ℚ → ℚ) (normO : ℚ → ℚ)
    (nodes : List WNode) (orig : Nat → Option (Nat → Option ℚ))
    (proposed : Overrides) : Bool :=
  nodes.any (fun node =>
    if node.children.length < 2 then false
    else
      match orig node.id with
      | none => false
      | some origOrders =>
        let px := (match proposed node.id with
                   | some p => p.1
                   | none => node.x) + node.w / 2
        let py := (match proposed node.id with
                   | some p => p.2
                   | none => node.y) + node.h / 2
        let newAngles := node.children.filterMap (fun cid =>
          match lookupW nodes cid with
          | none => none
          | some cm =>
            let cx := (match proposed cid with
                       | some p => p.1
                       | none => cm.x) + cm.w / 2
            let cy := (match proposed cid with
                       | some p => p.2
                       | none => cm.y) + cm.h / 2
            some (cid, atanO (cy - py) (cx - px)))
        pairsAny (fun a b =>
          match origOrders a.1, origOrders b.1 with
          | some origA, some origB =>
            decide (0 < normO (origB - origA)) != decide (0 < normO (b.2 - a.2))
          | _, _ => false) newAngles)

/-- The effective current position of a node (App.tsx 167-168 and 180-181):
the override when present, else the layout position; the zero fallback is
never reached for ids that are in the layout. -/
def curPos (nodes : List WNode) (prev : Overrides) (i : Nat) : ℚ × ℚ :=
  match prev i with
  | some p => p
  | none =>
    match lookupW nodes i with
    | some n => (n.x, n.y)
    | none => (0, 0)

/-- The loop body of the descendant move (App.tsx 177-186): a descendant
missing from the node map is skipped; otherwise its entry becomes its
current position (override when present, read against the pre-drag map,
else the layout position) plus the drag delta. -/
def dragStep (nodes : List WNode) (prev : Overrides) (deltaX deltaY : ℚ)
    (acc : Overrides) (cid : Nat) : Overrides :=
  match lookupW nodes cid with
  | none => acc
  | some cm =>
    let childCurrentX := match prev cid with | some p => p.1 | none => cm.x
    let childCurrentY := match prev cid with | some p => p.2 | none => cm.y
    setOv acc cid (childCurrentX + deltaX, childCurrentY + deltaY)

/-- The candidate override map a drag builds (App.tsx 160-186): the dragged
node goes to the pointer position and every descendant found in the layout
moves by the same delta from its own current position. -/
def proposedAfterDrag (nodes : List WNode) (desc : Nat → List Nat)
    (prev : Overrides) (nodeId : Nat) (x y : ℚ) (nm : WNode) : Overrides :=
  let currentX := match prev nodeId with | some p => p.1 | none => nm.x
  let currentY := match prev nodeId with | some p => p.2 | none => nm.y
  (desc nodeId).foldl
    (dragStep nodes prev (x - currentX) (y - currentY))
    (setOv prev nodeId (x, y))

/-- handleNodeDrag's state updater (App.tsx 158-197): no-op when the
dragged id is unknown to the layout, otherwise the candidate map, reverted
in whole when wouldCrossEdges rejects it. -/
def handleNodeDrag (atanO : ℚ → ℚ → ℚ) (normO : ℚ → ℚ)
    (nodes : List WNode) (desc : Nat → List Nat)
    (orig : Nat → Option (Nat → Option ℚ)) (prev : Overrides)
    (nodeId : Nat) (x y : ℚ) : Overrides :=
  match lookupW nodes nodeId with
  | none => prev
  | some nm =>
    let next := proposedAfterDrag nodes desc prev nodeId x y nm
    if wouldCrossEdges atanO normO nodes orig next then prev else next

end App

namespace Canvas

/-- MarkerShape (types.ts): the seven marker options of the controls
panel. -/
inductive MarkerShape : Type where
  | none
  | arrow
  | triangle
  | square
  | diamond
  | circle
  | dot
deriving DecidableEq

/-- The link-configuration fields the edge endpoint computation reads
(types.ts LinkConfig): the two marker shapes and the marker size. -/
structure LinkConfig where
  markerStart : MarkerShape
  markerEnd : MarkerShape
  markerSize : ℚ

/-- hasEnd (MindMapCanvas.tsx 878): an end marker is present when the
configured shape is not the none option. -/
def hasEndMarker (link : LinkConfig) : Bool :=
  decide (link.markerEnd ≠ MarkerShape.none)

/-- hasStart (MindMapCanvas.tsx 879). -/
def hasStartMarker (link : LinkConfig) : Bool :=
  decide (link.markerStart ≠ MarkerShape.none)

/-- endGap (MindMapCanvas.tsx 880): markerSize + 3 with an end marker, else
the flat 4-unit gap. -/
def endGap (link : LinkConfig) : ℚ :=
  if hasEndMarker link then link.markerSize + 3 else 4

/-- startGap (MindMapCanvas.tsx 881). -/
def startGap (link : LinkConfig) : ℚ :=
  if hasStartMarker link then link.markerSize + 3 else 4

/-- The fixed anchor sides (MindMapCanvas.tsx Anchor). -/
inductive Anchor : Type where
  | top
  | bottom
  | left
  | right
deriving DecidableEq

/-- anchorDirection (MindMapCanvas.tsx 1024-1031): outward unit direction
of each fixed anchor. -/
def anchorDirection : Anchor → ℚ × ℚ
  | .top => (0, -1)
  | .bottom => (0, 1)
  | .left => (-1, 0)
  | .right => (1, 0)

/-- The rectangle of a node as the edge renderer sees it. -/
structure RectG where
  x : ℚ
  y : ℚ
  width : ℚ
  height : ℚ

/-- getFixedAnchorPoint (MindMapCanvas.tsx 768-785): the center of the
chosen side, in translated coordinates. -/
def getFixedAnchorPoint (node : RectG) (anchor : Anchor)
    (offsetX offsetY : ℚ) : ℚ × ℚ :=
  let nx := node.x + offsetX
  let ny := node.y + offsetY
  let cx := nx + node.width / 2
  let cy := ny + node.height / 2
  match anchor with
  | .top => (cx, ny)
  | .bottom => (cx, ny + node.height)
  | .left => (nx, cy)
  | .right => (nx + node.width, cy)

/-- The layout paradigm selector (types.ts LayoutType). -/
inductive LayoutType : Type where
  | radial
  | horizontalRight
  | horizontalLeft
  | vertical
  | tree
deriving DecidableEq

/-- chooseFixedAnchors (MindMapCanvas.tsx 852-872): vertical always leaves
the source bottom into the target top; the other non-radial paradigms
compare translated x centers to pick the left/right pairing. -/
def chooseFixedAnchors (source target : RectG) (layout : LayoutType)
    (offsetX : ℚ) : Anchor × Anchor :=
  if layout = LayoutType.vertical then (Anchor.bottom, Anchor.top)
  else
    let sx := source.x + offsetX + source.width / 2
    let tx := target.x + offsetX + target.width / 2
    if sx < tx then (Anchor.right, Anchor.left) else (Anchor.left, Anchor.right)

/-- The fixed-anchor endpoint computation of the Edge component
(MindMapCanvas.tsx 914-934, and identically 632-649 in the other Edge
variant): anchor points, then each endpoint pushed outward from its anchor
along the anchor direction by the marker gap. Returns ((x1, y1), (x2, y2)). -/
def edgeEndpoints (link : LinkConfig) (layout : LayoutType)
    (source target : RectG) (offsetX offsetY : ℚ) : (ℚ × ℚ) × (ℚ × ℚ) :=
  let anchors := chooseFixedAnchors source target layout offsetX
  let p1 := getFixedAnchorPoint source anchors.1 offsetX offsetY
  let p2 := getFixedAnchorPoint target anchors.2 offsetX offsetY
  let sDir := anchorDirection anchors.1
  let eDir := anchorDirection anchors.2
  ((p1.1 + sDir.1 * startGap link, p1.2 + sDir.2 * startGap link),
   (p2.1 + eDir.1 * endGap link, p2.2 + eDir.2 * endGap link))

end Canvas

/-- Field-by-field relation between a node of the mirrored (left) layout
and the corresponding node of the right layout: x is reflected through
-x - width, every other field and the children id order agree. -/
def mirroredRel (a b : LayoutNode) : Prop :=
  a.data.id = b.data.id ∧ a.data.node = b.data.node ∧
  a.data.x = -b.data.x - b.data.width ∧ a.data.y = b.data.y ∧
  a.data.width = b.data.width ∧ a.data.height = b.data.height ∧
  a.data.depth = b.data.depth ∧ a.data.angle = b.data.angle ∧
  a.children.map (fun c => c.data.id) = b.children.map (fun c => c.data.id)

/-- Every node of a subtree has nonnegative width and height (true of every
node the sizer produces from a nonnegative oracle; hypothesis of the radial
theorems). -/
def nonnegDims (t : LayoutNode) : Prop :=
  ∀ m ∈ Engine.collectNodes t, 0 ≤ m.data.width ∧ 0 ≤ m.data.height

/-- A stub source node for layout trees built directly in examples. -/
def srcStub : MindMapNode := .mk 0 0 false false []

/-- Concrete node array for the collision-order counterexample, in
pre-order of the tree R(A(D), B(C)) with ids R=0, A=1, D=2, B=3, C=4. -/
def cexIds : List Nat := [0, 1, 2, 3, 4]

/-- Descendant ids for the counterexample tree. -/
def cexDesc : Nat → List Nat := fun i =>
  if i = 0 then [1, 2, 3, 4]
  else if i = 1 then [2]
  else if i = 3 then [4]
  else []

/-- Initial geometry for the counterexample: the two depth-1 nodes overlap
in y, and before resolution the depth-2 child of B sits above the depth-2
child of A. -/
def cexState : Engine.GeomState := fun i =>
  if i = 1 then ⟨0, 0, 10, 10, 1⟩
  else if i = 2 then ⟨0, 10, 10, 5, 2⟩
  else if i = 3 then ⟨0, 5, 10, 10, 1⟩
  else if i = 4 then ⟨0, 0, 10, 5, 2⟩
  else ⟨0, -100, 10, 10, 0⟩

/-- Internal radial node for the floor counterexample: a 100-square at
depth 1 with two 400-square leaf children at depth 2. -/
def cexFloorNode : LayoutNode :=
  .mk ⟨1, srcStub, 0, 0, 100, 100, 1, 0⟩
    [.mk ⟨2, srcStub, 0, 0, 400, 400, 2, 0⟩ [],
     .mk ⟨3, srcStub, 0, 0, 400, 400, 2, 0⟩ []]

/-- Configuration with zero horizontal spacing used by the radial
counterexample and witnesses. -/
def cfgZeroSpacing : MindMapConfig :=
  ⟨20, [16], 0, 0, 0, 0, 0, 0, 8, 20⟩

/-- A root with three children of subtree heights 22, 62 and 22 (at
vSpacing 12), whose best balanced split is after the first child. -/
def witSplitRoot : LayoutNode :=
  .mk ⟨0, srcStub, 0, 0, 30, 20, 0, 0⟩
    [.mk ⟨1, srcStub, 0, 0, 10, 10, 1, 0⟩ [],
     .mk ⟨2, srcStub, 0, 0, 10, 50, 1, 0⟩ [],
     .mk ⟨3, srcStub, 0, 0, 10, 10, 1, 0⟩ []]

/-- A leaf layout node at depth 1, 30 by 10. -/
def witRadialLeaf : LayoutNode := .mk ⟨1, srcStub, 0, 0, 30, 10, 1, 0⟩ []

/-- A tiny radial parent: one leaf child at depth 1. -/
def witRadialParent : LayoutNode :=
  .mk ⟨0, srcStub, 0, 0, 40, 20, 0, 0⟩ [witRadialLeaf]

/-- A single positioned node used by the bounds witness. -/
def witBoundsNode : LayoutNode :=
  .mk ⟨7, srcStub, -3, 2, 10, 4, 0, 0⟩ []

/-- A collapsed source root with two children, for the tree-builder
witness. -/
def witCollapsedSrc : MindMapNode :=
  .mk 0 0 false true [.mk 1 1 false false [], .mk 2 2 false false []]

/-- A constant measurement oracle for witnesses. -/
def witMeasure : Nat → ℚ → Nat → Nat → ℚ × ℚ := fun _ _ _ _ => (50, 14)

/-- A small configuration for the tree-builder witness. -/
def witCfg : MindMapConfig := ⟨20, [15, 13], 0, 0, 20, 10, 60, 30, 8, 20⟩

/-- Drag-handler witness layout: node 1 with child 2, both known to the
layout. -/
def witDragNodes : List App.WNode :=
  [⟨1, 0, 0, 2, 2, [2]⟩, ⟨2, 5, 5, 2, 2, []⟩]

/-- Descendant map for the drag witness. -/
def witDragDesc : Nat → List Nat := fun i => if i = 1 then [2] else []

/-- Constant angle oracle for the drag witness. -/
def witAtan : ℚ → ℚ → ℚ := fun _ _ => 0

/-- Identity normalization oracle for the drag witness. -/
def witNorm : ℚ → ℚ := fun a => a

/-- Empty baseline order map for the drag witness. -/
def witOrig : Nat → Option (Nat → Option ℚ) := fun _ => none

/-- Empty prior override map for the drag witness. -/
def witPrev : App.Overrides := fun _ => none

/-- Link configuration with an arrow end marker and no start marker, for
the gap witness. -/
def witLink : Canvas.LinkConfig := ⟨Canvas.MarkerShape.none, Canvas.MarkerShape.arrow, 8⟩

/-- Two-node level with no descendants for the sweep-order witness. -/
def witSweepState : Engine.GeomState := fun i =>
  if i = 1 then ⟨0, 0, 8, 6, 1⟩
  else if i = 2 then ⟨0, 4, 8, 6, 1⟩
  else ⟨0, 0, 0, 0, 0⟩

/-- State evolution along the packing axis of the horizontal/tree sweep:
x, width, height and depth of every node are untouched and y never
decreases. -/
def FrameLeY (σ σ' : Engine.GeomState) : Prop :=
  ∀ i, (σ' i).x = (σ i).x ∧ (σ i).y ≤ (σ' i).y ∧
    (σ' i).width = (σ i).width ∧ (σ' i).height = (σ i).height ∧
    (σ' i).depth = (σ i).depth

/-- State evolution along the packing axis of the vertical sweep: y, width,
height and depth of every node are untouched and x never decreases. -/
def FrameLeX (σ σ' : Engine.GeomState) : Prop :=
  ∀ i, (σ' i).y = (σ i).y ∧ (σ i).x ≤ (σ' i).x ∧
    (σ' i).width = (σ i).width ∧ (σ' i).height = (σ i).height ∧
    (σ' i).depth = (σ i).depth

theorem mindMapNodeInduction {motive : MindMapNode → Prop}
    (h : ∀ i tx ic co cs, (∀ c ∈ cs, motive c) → motive (.mk i tx ic co cs)) :
    ∀ t, motive t
  | .mk i tx ic co cs => h i tx ic co cs (fun c hc => mindMapNodeInduction h c)
decreasing_by
  have := List.sizeOf_lt_of_mem hc
  simp only [MindMapNode.mk.sizeOf_spec]
  omega

theorem layoutNodeInduction {motive : LayoutNode → Prop}
    (h : ∀ d cs, (∀ c ∈ cs, motive c) → motive (.mk d cs)) : ∀ t, motive t
  | .mk d cs => h d cs (fun c hc => layoutNodeInduction h c)
decreasing_by
  have := List.sizeOf_lt_of_mem hc
  simp only [LayoutNode.mk.sizeOf_spec]
  omega

theorem attachMap_eq {α β : Type} (l : List α) (f : α → β) :
    l.attach.map (fun c => f c.1) = l.map f := by
  induction l with
  | nil => simp
  | cons a l ih => simp [ih]

/-- C9: for every edge and each of its two endpoints, the gap applied
outward from the anchor along its direction vector equals markerSize + 3
when an arrow-type marker is present at that end, and equals 4 when no
marker is present at that end. -/
theorem edge_gap_values (link : Canvas.LinkConfig) (layout : Canvas.LayoutType)
    (source target : Canvas.RectG) (offsetX offsetY : ℚ) :
    ((link.markerEnd = Canvas.MarkerShape.arrow ∨
        link.markerEnd = Canvas.MarkerShape.triangle) →
      Canvas.endGap link = link.markerSize + 3)
    ∧ (link.markerEnd = Canvas.MarkerShape.none → Canvas.endGap link = 4)
    ∧ ((link.markerStart = Canvas.MarkerShape.arrow ∨
          link.markerStart = Canvas.MarkerShape.triangle) →
        Canvas.startGap link = link.markerSize + 3)
    ∧ (link.markerStart = Canvas.MarkerShape.none → Canvas.startGap link = 4)
    ∧ ((Canvas.edgeEndpoints link layout source target offsetX offsetY).1 =
        (let a := (Canvas.chooseFixedAnchors source target layout offsetX).1
         ((Canvas.getFixedAnchorPoint source a offsetX offsetY).1 +
            (Canvas.anchorDirection a).1 * Canvas.startGap link,
          (Canvas.getFixedAnchorPoint source a offsetX offsetY).2 +
            (Canvas.anchorDirection a).2 * Canvas.startGap link)))
    ∧ ((Canvas.edgeEndpoints link layout source target offsetX offsetY).2 =
        (let a := (Canvas.chooseFixedAnchors source target layout offsetX).2
         ((Canvas.getFixedAnchorPoint target a offsetX offsetY).1 +
            (Canvas.anchorDirection a).1 * Canvas.endGap link,
          (Canvas.getFixedAnchorPoint target a offsetX offsetY).2 +
            (Canvas.anchorDirection a).2 * Canvas.endGap link))) := by
  refine ⟨?_, ?_, ?_, ?_, ?_, ?_⟩
  · rintro (h | h) <;>
      simp [Canvas.endGap, Canvas.hasEndMarker, h]
  · intro h
    simp [Canvas.endGap, Canvas.hasEndMarker, h]
  · rintro (h | h) <;>
      simp [Canvas.startGap, Canvas.hasStartMarker, h]
  · intro h
    simp [Canvas.startGap, Canvas.hasStartMarker, h]
  · simp [Canvas.edgeEndpoints]
  · simp [Canvas.edgeEndpoints]

theorem edge_gap_values_witness :
    Canvas.endGap witLink = witLink.markerSize + 3 ∧ Canvas.startGap witLink = 4 :=
  ⟨(edge_gap_values witLink Canvas.LayoutType.tree ⟨0, 0, 1, 1⟩ ⟨0, 0, 1, 1⟩ 0 0).1
      (Or.inl rfl),
   (edge_gap_values witLink Canvas.LayoutType.tree ⟨0, 0, 1, 1⟩ ⟨0, 0, 1, 1⟩ 0 0).2.2.2.1
      rfl⟩

theorem foldlBounds_spec (l : List LayoutNode) (b : Engine.Bounds) :
    (l.foldl Engine.boundsStep b).minX ≤ b.minX ∧
    (l.foldl Engine.boundsStep b).minY ≤ b.minY ∧
    b.maxX ≤ (l.foldl Engine.boundsStep b).maxX ∧
    b.maxY ≤ (l.foldl Engine.boundsStep b).maxY ∧
    ∀ n ∈ l,
      (l.foldl Engine.boundsStep b).minX ≤ n.data.x ∧
      (l.foldl Engine.boundsStep b).minY ≤ n.data.y ∧
      n.data.x + n.data.width ≤ (l.foldl Engine.boundsStep b).maxX ∧
      n.data.y + n.data.height ≤ (l.foldl Engine.boundsStep b).maxY := by
  induction l generalizing b with
  | nil => simp
  | cons m rest ih =>
    simp only [List.foldl_cons]
    obtain ⟨h1, h2, h3, h4, h5⟩ := ih (Engine.boundsStep b m)
    refine ⟨le_trans h1 (min_le_left _ _), le_trans h2 (min_le_left _ _),
      le_trans (le_max_left _ _) h3, le_trans (le_max_left _ _) h4, ?_⟩
    intro n hn
    rcases List.mem_cons.mp hn with rfl | hn
    · exact ⟨le_trans h1 (min_le_right _ _), le_trans h2 (min_le_right _ _),
        le_trans (le_max_right _ _) h3, le_trans (le_max_right _ _) h4⟩
    · exact h5 n hn

/-- C4: for every layout computation on a nonempty node list, with the
offsets and canvas size computed by computeLayout from computeBounds and a
nonnegative padding, every node's rectangle translated by the offsets lies
within the box from the origin to (width, height). -/
theorem layout_bounds_contain (nodes : List LayoutNode) (padding : ℚ)
    (hne : nodes ≠ []) (hpad : 0 ≤ padding) :
    ∀ n ∈ nodes,
      0 ≤ n.data.x + (Engine.layoutMetrics nodes padding).offsetX ∧
      n.data.x + (Engine.layoutMetrics nodes padding).offsetX + n.data.width ≤
        (Engine.layoutMetrics nodes padding).width ∧
      0 ≤ n.data.y + (Engine.layoutMetrics nodes padding).offsetY ∧
      n.data.y + (Engine.layoutMetrics nodes padding).offsetY + n.data.height ≤
        (Engine.layoutMetrics nodes padding).height := by
  match nodes, hne with
  | n0 :: rest, _ =>
    intro n hn
    obtain ⟨h1, h2, h3, h4, h5⟩ := foldlBounds_spec rest
      ⟨n0.data.x, n0.data.y, n0.data.x + n0.data.width, n0.data.y + n0.data.height⟩
    simp only [Engine.layoutMetrics, Engine.computeBounds]
    have hx : (Engine.computeBounds (n0 :: rest)).minX ≤ n.data.x ∧
        (Engine.computeBounds (n0 :: rest)).minY ≤ n.data.y ∧
        n.data.x + n.data.width ≤ (Engine.computeBounds (n0 :: rest)).maxX ∧
        n.data.y + n.data.height ≤ (Engine.computeBounds (n0 :: rest)).maxY := by
      rcases List.mem_cons.mp hn with rfl | hn
      · exact ⟨h1, h2, h3, h4⟩
      · exact h5 n hn
    obtain ⟨hminX, hminY, hmaxX, hmaxY⟩ := hx
    simp only [Engine.computeBounds] at hminX hminY hmaxX hmaxY
    constructor
    · linarith
    constructor
    · linarith
    constructor
    · linarith
    · linarith

theorem layout_bounds_contain_witness :
    0 ≤ witBoundsNode.data.x + (Engine.layoutMetrics [witBoundsNode] 5).offsetX ∧
    witBoundsNode.data.x + (Engine.layoutMetrics [witBoundsNode] 5).offsetX +
      witBoundsNode.data.width ≤ (Engine.layoutMetrics [witBoundsNode] 5).width ∧
    0 ≤ witBoundsNode.data.y + (Engine.layoutMetrics [witBoundsNode] 5).offsetY ∧
    witBoundsNode.data.y + (Engine.layoutMetrics [witBoundsNode] 5).offsetY +
      witBoundsNode.data.height ≤ (Engine.layoutMetrics [witBoundsNode] 5).height :=
  layout_bounds_contain [witBoundsNode] 5 (by simp) (by simp) witBoundsNode (by simp)

theorem mirror_data (d : LayoutData) (cs : List LayoutNode) :
    Engine.mirrorLayoutX (.mk d cs) =
      .mk { d with x := -d.x - d.width } (cs.map Engine.mirrorLayoutX) := by
  rw [Engine.mirrorLayoutX]
  rw [attachMap_eq]

theorem mirror_id_eq (t : LayoutNode) :
    (Engine.mirrorLayoutX t).data.id = t.data.id := by
  cases t with
  | mk d cs =>
    rw [mirror_data]
    rfl

theorem collectNodes_mirror (t : LayoutNode) :
    Engine.collectNodes (Engine.mirrorLayoutX t) =
      (Engine.collectNodes t).map Engine.mirrorLayoutX := by
  induction t using layoutNodeInduction with
  | h d cs ih =>
    rw [mirror_data, Engine.collectNodes, Engine.collectNodes, attachMap_eq,
      attachMap_eq, List.map_cons, mirror_data]
    congr 1
    rw [List.map_map, List.map_flatten, List.map_map]
    congr 1
    apply List.map_congr_left
    intro c hc
    exact ih c hc

theorem forall₂_map_self {α : Type} (R : α → α → Prop) (f : α → α) (l : List α)
    (h : ∀ x ∈ l, R (f x) x) : List.Forall₂ R (l.map f) l := by
  induction l with
  | nil => simp
  | cons a l ih =>
    simp only [List.map_cons]
    exact List.Forall₂.cons (h a (by simp)) (ih (fun x hx => h x (by simp [hx])))

/-- C8: the horizontal-left layout is the horizontal-right layout with
every node's x replaced by -x - width and every other node field, and the
children id order, identical. -/
theorem horizontal_left_mirrors (cfg : MindMapConfig) (root : LayoutNode) :
    List.Forall₂ mirroredRel
      (Engine.collectNodes (Engine.layoutHorizontalLeft cfg root))
      (Engine.collectNodes (Engine.layoutHorizontalRight cfg root)) := by
  rw [Engine.layoutHorizontalLeft, collectNodes_mirror]
  apply forall₂_map_self
  intro n _
  cases n with
  | mk d cs =>
    rw [mirror_data]
    refine ⟨rfl, rfl, rfl, rfl, rfl, rfl, rfl, rfl, ?_⟩
    show (cs.map Engine.mirrorLayoutX).map (fun c => c.data.id) =
      cs.map (fun c => c.data.id)
    rw [List.map_map]
    apply List.map_congr_left
    intro c _
    exact mirror_id_eq c

theorem self_mem_collectNodes (t : LayoutNode) : t ∈ Engine.collectNodes t := by
  cases t with
  | mk d cs =>
    rw [Engine.collectNodes]
    exact List.mem_cons_self _ _

theorem mem_collectNodes_build (μ : Nat → ℚ → Nat → Nat → ℚ × ℚ)
    (cfg : MindMapConfig) :
    ∀ (t : MindMapNode) (d : Nat) (L : LayoutNode),
      L ∈ Engine.collectNodes (Engine.buildLayoutTree μ cfg t d) →
      L = Engine.buildLayoutTree μ cfg L.data.node L.data.depth := by
  intro t
  induction t using mindMapNodeInduction with
  | h i tx ic co cs ih =>
    intro d L hL
    rw [Engine.buildLayoutTree] at hL
    simp only [MindMapNode.children] at hL
    rw [Engine.collectNodes, attachMap_eq] at hL
    rcases List.mem_cons.mp hL with rfl | hL
    · simp only [LayoutNode.data]
      rw [Engine.buildLayoutTree]
      simp only [MindMapNode.children]
    · rw [List.mem_flatten] at hL
      obtain ⟨s, hs, hLs⟩ := hL
      rw [List.mem_map] at hs
      obtain ⟨sub, hsub, rfl⟩ := hs
      by_cases hcond : (MindMapNode.mk i tx ic co cs).collapsed = false ∧
          d < cfg.maxDepth
      · rw [if_pos hcond] at hsub
        rw [List.mem_map] at hsub
        obtain ⟨c, _, rfl⟩ := hsub
        exact ih c.1 c.2 (d + 1) L hLs
      · rw [if_neg hcond] at hsub
        simp at hsub

/-- C7: every source node that is collapsed, or whose depth has reached the
configured maximum, yields a LayoutNode with an empty children list even if
the source has children, and consequently no LayoutEdge is generated
beneath it. -/
theorem collapsed_or_capped_childless (μ : Nat → ℚ → Nat → Nat → ℚ × ℚ)
    (cfg : MindMapConfig) (t : MindMapNode) (d : Nat) :
    ∀ L ∈ Engine.collectNodes (Engine.buildLayoutTree μ cfg t d),
      (L.data.node.collapsed = true ∨ cfg.maxDepth ≤ L.data.depth) →
      L.children = [] ∧ Engine.collectEdges L = [] := by
  intro L hL hcond
  have hEq := mem_collectNodes_build μ cfg t d L hL
  have hchild : L.children = [] := by
    conv_lhs => rw [hEq]
    cases hs : L.data.node with
    | mk i tx ic co cs =>
      rw [Engine.buildLayoutTree]
      simp only [LayoutNode.children]
      rw [if_neg]
      rcases hcond with hcol | hdep
      · rw [hs] at hcol
        simp only [MindMapNode.collapsed] at hcol
        simp [MindMapNode.collapsed, hcol]
      · intro hcontra
        exact absurd hcontra.2 (not_lt.mpr hdep)
  refine ⟨hchild, ?_⟩
  cases L with
  | mk dL csL =>
    simp only [LayoutNode.children] at hchild
    subst hchild
    rw [Engine.collectEdges]
    simp

theorem collapsed_or_capped_childless_witness :
    (Engine.buildLayoutTree witMeasure witCfg witCollapsedSrc 0).children = [] ∧
    Engine.collectEdges (Engine.buildLayoutTree witMeasure witCfg witCollapsedSrc 0) = [] :=
  collapsed_or_capped_childless witMeasure witCfg witCollapsedSrc 0 _
    (self_mem_collectNodes _)
    (Or.inl (by rw [Engine.buildLayoutTree]; rfl))

theorem frameLeY_refl (σ : Engine.GeomState) : FrameLeY σ σ :=
  fun _ => ⟨rfl, le_refl _, rfl, rfl, rfl⟩

theorem frameLeY_trans {σ1 σ2 σ3 : Engine.GeomState}
    (h1 : FrameLeY σ1 σ2) (h2 : FrameLeY σ2 σ3) : FrameLeY σ1 σ3 := by
  intro i
  obtain ⟨a1, a2, a3, a4, a5⟩ := h1 i
  obtain ⟨b1, b2, b3, b4, b5⟩ := h2 i
  exact ⟨b1.trans a1, a2.trans b2, b3.trans a3, b4.trans a4, b5.trans a5⟩

theorem frameLeX_refl (σ : Engine.GeomState) : FrameLeX σ σ :=
  fun _ => ⟨rfl, le_refl _, rfl, rfl, rfl⟩

theorem frameLeX_trans {σ1 σ2 σ3 : Engine.GeomState}
    (h1 : FrameLeX σ1 σ2) (h2 : FrameLeX σ2 σ3) : FrameLeX σ1 σ3 := by
  intro i
  obtain ⟨a1, a2, a3, a4, a5⟩ := h1 i
  obtain ⟨b1, b2, b3, b4, b5⟩ := h2 i
  exact ⟨b1.trans a1, a2.trans b2, b3.trans a3, b4.trans a4, b5.trans a5⟩

theorem setXY_frameY (σ : Engine.GeomState) (i : Nat) (y' : ℚ)
    (hy : (σ i).y ≤ y') : FrameLeY σ (Engine.setXY σ i (σ i).x y') := by
  intro j
  by_cases h : j = i
  · subst h
    simp [Engine.setXY, hy]
  · simp [Engine.setXY, h]

theorem setXY_frameX (σ : Engine.GeomState) (i : Nat) (x' : ℚ)
    (hx : (σ i).x ≤ x') : FrameLeX σ (Engine.setXY σ i x' (σ i).y) := by
  intro j
  by_cases h : j = i
  · subst h
    simp [Engine.setXY, hx]
  · simp [Engine.setXY, h]

theorem shiftFold_frameY (dy : ℚ) (hdy : 0 ≤ dy) :
    ∀ (l : List Nat) (σ : Engine.GeomState),
      FrameLeY σ (l.foldl
        (fun σc c => Engine.setXY σc c ((σc c).x + 0) ((σc c).y + dy)) σ)
  | [], σ => frameLeY_refl σ
  | c :: l, σ => by
    rw [List.foldl_cons]
    refine frameLeY_trans ?_ (shiftFold_frameY dy hdy l _)
    have : Engine.setXY σ c ((σ c).x + 0) ((σ c).y + dy) =
        Engine.setXY σ c ((σ c).x) ((σ c).y + dy) := by
      rw [add_zero]
    rw [this]
    exact setXY_frameY σ c _ (by linarith)

theorem shiftFold_frameX (dx : ℚ) (hdx : 0 ≤ dx) :
    ∀ (l : List Nat) (σ : Engine.GeomState),
      FrameLeX σ (l.foldl
        (fun σc c => Engine.setXY σc c ((σc c).x + dx) ((σc c).y + 0)) σ)
  | [], σ => frameLeX_refl σ
  | c :: l, σ => by
    rw [List.foldl_cons]
    refine frameLeX_trans ?_ (shiftFold_frameX dx hdx l _)
    have : Engine.setXY σ c ((σ c).x + dx) ((σ c).y + 0) =
        Engine.setXY σ c ((σ c).x + dx) ((σ c).y) := by
      rw [add_zero]
    rw [this]
    exact setXY_frameX σ c _ (by linarith)

theorem shiftSubtree_frameY (desc : Nat → List Nat) (i : Nat) (dy : ℚ)
    (hdy : 0 ≤ dy) (σ : Engine.GeomState) :
    FrameLeY σ (Engine.shiftSubtreeXY desc i 0 dy σ) :=
  shiftFold_frameY dy hdy (desc i) σ

theorem shiftSubtree_frameX (desc : Nat → List Nat) (i : Nat) (dx : ℚ)
    (hdx : 0 ≤ dx) (σ : Engine.GeomState) :
    FrameLeX σ (Engine.shiftSubtreeXY desc i dx 0 σ) :=
  shiftFold_frameX dx hdx (desc i) σ

theorem sweepY_step_frame (desc : Nat → List Nat) (σ : Engine.GeomState)
    (prev curr : Nat) :
    FrameLeY σ
      (if 0 < (σ prev).y + (σ prev).height + Engine.collisionPadding - (σ curr).y then
        Engine.shiftSubtreeXY desc curr 0
          ((σ prev).y + (σ prev).height + Engine.collisionPadding - (σ curr).y)
          (Engine.setXY σ curr (σ curr).x
            ((σ curr).y + ((σ prev).y + (σ prev).height + Engine.collisionPadding - (σ curr).y)))
      else σ) := by
  split
  · rename_i hpos
    exact frameLeY_trans
      (setXY_frameY σ curr
        ((σ curr).y + ((σ prev).y + (σ prev).height + Engine.collisionPadding - (σ curr).y))
        (by linarith))
      (shiftSubtree_frameY desc curr _ (le_of_lt hpos) _)
  · exact frameLeY_refl σ

theorem sweepX_step_frame (desc : Nat → List Nat) (σ : Engine.GeomState)
    (prev curr : Nat) :
    FrameLeX σ
      (if 0 < (σ prev).x + (σ prev).width + Engine.collisionPadding - (σ curr).x then
        Engine.shiftSubtreeXY desc curr
          ((σ prev).x + (σ prev).width + Engine.collisionPadding - (σ curr).x) 0
          (Engine.setXY σ curr
            ((σ curr).x + ((σ prev).x + (σ prev).width + Engine.collisionPadding - (σ curr).x))
            (σ curr).y)
      else σ) := by
  split
  · rename_i hpos
    exact frameLeX_trans
      (setXY_frameX σ curr
        ((σ curr).x + ((σ prev).x + (σ prev).width + Engine.collisionPadding - (σ curr).x))
        (by linarith))
      (shiftSubtree_frameX desc curr _ (le_of_lt hpos) _)
  · exact frameLeX_refl σ

theorem sweepY_frame (desc : Nat → List Nat) :
    ∀ (l : List Nat) (σ : Engine.GeomState), FrameLeY σ (Engine.sweepY desc l σ)
  | [], σ => by
    rw [Engine.sweepY]
    exact frameLeY_refl σ
  | [x], σ => by
    rw [Engine.sweepY]
    exact frameLeY_refl σ
  | a :: b :: rest, σ => by
    rw [Engine.sweepY]
    exact frameLeY_trans (sweepY_step_frame desc σ a b)
      (sweepY_frame desc (b :: rest) _)

theorem sweepX_frame (desc : Nat → List Nat) :
    ∀ (l : List Nat) (σ : Engine.GeomState), FrameLeX σ (Engine.sweepX desc l σ)
  | [], σ => by
    rw [Engine.sweepX]
    exact frameLeX_refl σ
  | [x], σ => by
    rw [Engine.sweepX]
    exact frameLeX_refl σ
  | a :: b :: rest, σ => by
    rw [Engine.sweepX]
    exact frameLeX_trans (sweepX_step_frame desc σ a b)
      (sweepX_frame desc (b :: rest) _)

theorem foldl_frameY {β : Type} (f : Engine.GeomState → β → Engine.GeomState)
    (hf : ∀ σ b, FrameLeY σ (f σ b)) :
    ∀ (l : List β) (σ : Engine.GeomState), FrameLeY σ (l.foldl f σ)
  | [], σ => frameLeY_refl σ
  | b :: l, σ => by
    rw [List.foldl_cons]
    exact frameLeY_trans (hf σ b) (foldl_frameY f hf l _)

theorem foldl_frameX {β : Type} (f : Engine.GeomState → β → Engine.GeomState)
    (hf : ∀ σ b, FrameLeX σ (f σ b)) :
    ∀ (l : List β) (σ : Engine.GeomState), FrameLeX σ (l.foldl f σ)
  | [], σ => frameLeX_refl σ
  | b :: l, σ => by
    rw [List.foldl_cons]
    exact frameLeX_trans (hf σ b) (foldl_frameX f hf l _)

/-- C10: the horizontal/tree branch of resolveCollisions never changes any
node's x, width, height or depth, and moves y only forward; the vertical
branch never changes y, width, height or depth, and moves x only forward —
every push, including the shift propagated to a pushed node's subtree, goes
forward along the packing axis. -/
theorem resolve_collisions_frame (ids : List Nat) (desc : Nat → List Nat)
    (σ : Engine.GeomState) (i : Nat) :
    ((Engine.resolveCollisionsHorizontal ids desc σ) i).x = (σ i).x ∧
    (σ i).y ≤ ((Engine.resolveCollisionsHorizontal ids desc σ) i).y ∧
    ((Engine.resolveCollisionsHorizontal ids desc σ) i).width = (σ i).width ∧
    ((Engine.resolveCollisionsHorizontal ids desc σ) i).height = (σ i).height ∧
    ((Engine.resolveCollisionsHorizontal ids desc σ) i).depth = (σ i).depth ∧
    ((Engine.resolveCollisionsVertical ids desc σ) i).y = (σ i).y ∧
    (σ i).x ≤ ((Engine.resolveCollisionsVertical ids desc σ) i).x ∧
    ((Engine.resolveCollisionsVertical ids desc σ) i).width = (σ i).width ∧
    ((Engine.resolveCollisionsVertical ids desc σ) i).height = (σ i).height ∧
    ((Engine.resolveCollisionsVertical ids desc σ) i).depth = (σ i).depth := by
  have hH : FrameLeY σ (Engine.resolveCollisionsHorizontal ids desc σ) := by
    rw [Engine.resolveCollisionsHorizontal]
    exact foldl_frameY _ (fun σc d => sweepY_frame desc _ σc) _ σ
  have hV : FrameLeX σ (Engine.resolveCollisionsVertical ids desc σ) := by
    rw [Engine.resolveCollisionsVertical]
    exact foldl_frameX _ (fun σc d => sweepX_frame desc _ σc) _ σ
  obtain ⟨a1, a2, a3, a4, a5⟩ := hH i
  obtain ⟨b1, b2, b3, b4, b5⟩ := hV i
  exact ⟨a1, a2, a3, a4, a5, b1, b2, b3, b4, b5⟩

theorem setXY_untouched (σ : Engine.GeomState) (i : Nat) (x y : ℚ) (j : Nat)
    (h : j ≠ i) : Engine.setXY σ i x y j = σ j := by
  simp [Engine.setXY, h]

theorem shiftFold_untouched (dx dy : ℚ) :
    ∀ (l : List Nat) (σ : Engine.GeomState) (j : Nat), j ∉ l →
      (l.foldl (fun σc c => Engine.setXY σc c ((σc c).x + dx) ((σc c).y + dy)) σ) j = σ j
  | [], σ, j, _ => rfl
  | c :: l, σ, j, hj => by
    rw [List.foldl_cons]
    rw [shiftFold_untouched dx dy l _ j (fun h => hj (by simp [h]))]
    exact setXY_untouched σ c _ _ j (fun h => hj (by simp [h]))

theorem shiftSubtree_untouched (desc : Nat → List Nat) (i : Nat) (dx dy : ℚ)
    (σ : Engine.GeomState) (j : Nat) (h : j ∉ desc i) :
    Engine.shiftSubtreeXY desc i dx dy σ j = σ j :=
  shiftFold_untouched dx dy (desc i) σ j h

theorem sweepY_untouched (desc : Nat → List Nat) :
    ∀ (l : List Nat) (σ : Engine.GeomState) (j : Nat), j ∉ l →
      (∀ a ∈ l, j ∉ desc a) → Engine.sweepY desc l σ j = σ j
  | [], σ, j, _, _ => by rw [Engine.sweepY]
  | [x], σ, j, _, _ => by rw [Engine.sweepY]
  | a :: b :: rest, σ, j, hj, hd => by
    rw [Engine.sweepY]
    rw [sweepY_untouched desc (b :: rest) _ j
      (fun h => hj (by simp at h ⊢; tauto))
      (fun m hm => hd m (by simp at hm ⊢; tauto))]
    split
    · rw [shiftSubtree_untouched desc b 0 _ _ j (hd b (by simp))]
      exact setXY_untouched σ b _ _ j (fun h => hj (by simp [h]))
    · rfl

theorem sweepX_untouched (desc : Nat → List Nat) :
    ∀ (l : List Nat) (σ : Engine.GeomState) (j : Nat), j ∉ l →
      (∀ a ∈ l, j ∉ desc a) → Engine.sweepX desc l σ j = σ j
  | [], σ, j, _, _ => by rw [Engine.sweepX]
  | [x], σ, j, _, _ => by rw [Engine.sweepX]
  | a :: b :: rest, σ, j, hj, hd => by
    rw [Engine.sweepX]
    rw [sweepX_untouched desc (b :: rest) _ j
      (fun h => hj (by simp at h ⊢; tauto))
      (fun m hm => hd m (by simp at hm ⊢; tauto))]
    split
    · rw [shiftSubtree_untouched desc b _ 0 _ j (hd b (by simp))]
      exact setXY_untouched σ b _ _ j (fun h => hj (by simp [h]))
    · rfl

theorem sweepX_orders (desc : Nat → List Nat) :
    ∀ (l : List Nat) (σ : Engine.GeomState),
      l.Nodup →
      (∀ a ∈ l, ∀ b ∈ l, b ∉ desc a) →
      (∀ a ∈ l, 0 ≤ (σ a).width) →
      List.Chain'
        (fun a b => ((Engine.sweepX desc l σ) a).x ≤ ((Engine.sweepX desc l σ) b).x) l ∧
      (∀ a, l.head? = some a → Engine.sweepX desc l σ a = σ a)
  | [], σ, _, _, _ => by
    rw [Engine.sweepX]
    exact ⟨List.chain'_nil, by intro a h; simp at h⟩
  | [x], σ, _, _, _ => by
    rw [Engine.sweepX]
    refine ⟨by simp, ?_⟩
    intro a h
    simp at h
    subst h
    rfl
  | a :: b :: rest, σ, hnd, hdisj, hw => by
    rw [Engine.sweepX]
    have hmemA : a ∈ a :: b :: rest := by simp
    have hmemB : b ∈ a :: b :: rest := by simp
    have hanb : a ∉ b :: rest := (List.nodup_cons.mp hnd).1
    have hstep := sweepX_step_frame desc σ a b
    set ov := (σ a).x + (σ a).width + Engine.collisionPadding - (σ b).x with hov
    set σ1 := (if 0 < ov then
        Engine.shiftSubtreeXY desc b ov 0
          (Engine.setXY σ b ((σ b).x + ov) (σ b).y)
      else σ) with hσ1
    have f1 : σ1 a = σ a := by
      rw [hσ1]
      split
      · rw [shiftSubtree_untouched desc b ov 0 _ a (hdisj b hmemB a hmemA)]
        exact setXY_untouched σ b _ _ a (fun h => hanb (by simp [h]))
      · rfl
    have hrest := sweepX_orders desc (b :: rest) σ1
      ((List.nodup_cons.mp hnd).2)
      (fun x hx y hy => hdisj x (by simp [hx]) y (by simp [hy]))
      (by
        intro x hx
        have := (hstep x).2.2.1
        rw [this]
        exact hw x (by simp [hx]))
    obtain ⟨hchain, hhead⟩ := hrest
    have f2 : Engine.sweepX desc (b :: rest) σ1 a = σ1 a :=
      sweepX_untouched desc (b :: rest) σ1 a hanb
        (fun m hm => hdisj m (by simp at hm ⊢; tauto) a hmemA)
    have fb : Engine.sweepX desc (b :: rest) σ1 b = σ1 b := hhead b rfl
    have hord : (σ a).x ≤ (σ1 b).x := by
      rw [hσ1]
      split
      · rename_i hpos
        rw [shiftSubtree_untouched desc b ov 0 _ b (hdisj b hmemB b hmemB)]
        have : Engine.setXY σ b ((σ b).x + ov) (σ b).y b =
            { σ b with x := (σ b).x + ov, y := (σ b).y } := by
          simp [Engine.setXY]
        rw [this]
        have hpad : (0 : ℚ) ≤ Engine.collisionPadding := by
          norm_num [Engine.collisionPadding]
        have := hw a hmemA
        simp only [hov]
        linarith
      · rename_i hneg
        have hle : ov ≤ 0 := le_of_not_lt hneg
        have hpad : (0 : ℚ) ≤ Engine.collisionPadding := by
          norm_num [Engine.collisionPadding]
        have := hw a hmemA
        rw [hov] at hle
        linarith
    refine ⟨List.chain'_cons.mpr ⟨?_, hchain⟩, ?_⟩
    · rw [f2, f1, fb]
      exact hord
    · intro c hc
      simp at hc
      subst hc
      rw [f2, f1]

theorem sweepY_orders (desc : Nat → List Nat) :
    ∀ (l : List Nat) (σ : Engine.GeomState),
      l.Nodup →
      (∀ a ∈ l, ∀ b ∈ l, b ∉ desc a) →
      (∀ a ∈ l, 0 ≤ (σ a).height) →
      List.Chain'
        (fun a b => ((Engine.sweepY desc l σ) a).y ≤ ((Engine.sweepY desc l σ) b).y) l ∧
      (∀ a, l.head? = some a → Engine.sweepY desc l σ a = σ a)
  | [], σ, _, _, _ => by
    rw [Engine.sweepY]
    exact ⟨List.chain'_nil, by intro a h; simp at h⟩
  | [x], σ, _, _, _ => by
    rw [Engine.sweepY]
    refine ⟨by simp, ?_⟩
    intro a h
    simp at h
    subst h
    rfl
  | a :: b :: rest, σ, hnd, hdisj, hh => by
    rw [Engine.sweepY]
    have hmemA : a ∈ a :: b :: rest := by simp
    have hmemB : b ∈ a :: b :: rest := by simp
    have hanb : a ∉ b :: rest := (List.nodup_cons.mp hnd).1
    have hstep := sweepY_step_frame desc σ a b
    set ov := (σ a).y + (σ a).height + Engine.collisionPadding - (σ b).y with hov
    set σ1 := (if 0 < ov then
        Engine.shiftSubtreeXY desc b 0 ov
          (Engine.setXY σ b (σ b).x ((σ b).y + ov))
      else σ) with hσ1
    have f1 : σ1 a = σ a := by
      rw [hσ1]
      split
      · rw [shiftSubtree_untouched desc b 0 ov _ a (hdisj b hmemB a hmemA)]
        exact setXY_untouched σ b _ _ a (fun h => hanb (by simp [h]))
      · rfl
    have hrest := sweepY_orders desc (b :: rest) σ1
      ((List.nodup_cons.mp hnd).2)
      (fun x hx y hy => hdisj x (by simp [hx]) y (by simp [hy]))
      (by
        intro x hx
        have := (hstep x).2.2.2.1
        rw [this]
        exact hh x (by simp [hx]))
    obtain ⟨hchain, hhead⟩ := hrest
    have f2 : Engine.sweepY desc (b :: rest) σ1 a = σ1 a :=
      sweepY_untouched desc (b :: rest) σ1 a hanb
        (fun m hm => hdisj m (by simp at hm ⊢; tauto) a hmemA)
    have fb : Engine.sweepY desc (b :: rest) σ1 b = σ1 b := hhead b rfl
    have hord : (σ a).y ≤ (σ1 b).y := by
      rw [hσ1]
      split
      · rename_i hpos
        rw [shiftSubtree_untouched desc b 0 ov _ b (hdisj b hmemB b hmemB)]
        have : Engine.setXY σ b (σ b).x ((σ b).y + ov) b =
            { σ b with x := (σ b).x, y := (σ b).y + ov } := by
          simp [Engine.setXY]
        rw [this]
        have hpad : (0 : ℚ) ≤ Engine.collisionPadding := by
          norm_num [Engine.collisionPadding]
        have := hh a hmemA
        simp only [hov]
        linarith
      · rename_i hneg
        have hle : ov ≤ 0 := le_of_not_lt hneg
        have hpad : (0 : ℚ) ≤ Engine.collisionPadding := by
          norm_num [Engine.collisionPadding]
        have := hh a hmemA
        rw [hov] at hle
        linarith
    refine ⟨List.chain'_cons.mpr ⟨?_, hchain⟩, ?_⟩
    · rw [f2, f1, fb]
      exact hord
    · intro c hc
      simp at hc
      subst hc
      rw [f2, f1]

/-- C2, amended: within every depth level, in both non-radial branches of
resolveCollisions, the collision sweep leaves the level's nodes in the
packing-axis order the level was sorted into when its sweep began (the
claim as stated fails globally, because a push propagated to a pushed
node's subtree can reorder deeper levels relative to the pre-resolution
state). -/
theorem sweep_level_order_preserved (desc : Nat → List Nat) (l : List Nat)
    (σ : Engine.GeomState) (hnd : l.Nodup)
    (hdisj : ∀ a ∈ l, ∀ b ∈ l, b ∉ desc a)
    (hh : ∀ a ∈ l, 0 ≤ (σ a).height) (hw : ∀ a ∈ l, 0 ≤ (σ a).width) :
    List.Chain'
      (fun a b => ((Engine.sweepY desc l σ) a).y ≤ ((Engine.sweepY desc l σ) b).y) l ∧
    List.Chain'
      (fun a b => ((Engine.sweepX desc l σ) a).x ≤ ((Engine.sweepX desc l σ) b).x) l :=
  ⟨(sweepY_orders desc l σ hnd hdisj hh).1, (sweepX_orders desc l σ hnd hdisj hw).1⟩

theorem sweep_level_order_preserved_witness :
    List.Chain'
      (fun a b => ((Engine.sweepY (fun _ => []) [1, 2] witSweepState) a).y ≤
        ((Engine.sweepY (fun _ => []) [1, 2] witSweepState) b).y) [1, 2] ∧
    List.Chain'
      (fun a b => ((Engine.sweepX (fun _ => []) [1, 2] witSweepState) a).x ≤
        ((Engine.sweepX (fun _ => []) [1, 2] witSweepState) b).x) [1, 2] :=
  sweep_level_order_preserved (fun _ => []) [1, 2] witSweepState
    (by decide) (by decide) (by simp [witSweepState]) (by simp [witSweepState])

/-- C2 counterexample: on the concrete five-node forest cexState (pre-order
of a root with two depth-1 subtrees), node 4 starts strictly below node 2
on the packing axis, and after resolveCollisionsHorizontal node 2 is
strictly below node 4: the sorted packing-axis order of the depth-2 level
before and after collision resolution differs, refuting the claim as
stated. -/
theorem resolve_collisions_reorders_nodes :
    (cexState 4).y < (cexState 2).y ∧
    ((Engine.resolveCollisionsHorizontal cexIds cexDesc cexState) 2).y <
      ((Engine.resolveCollisionsHorizontal cexIds cexDesc cexState) 4).y := by
  constructor
  · norm_num [cexState]
  · norm_num [Engine.resolveCollisionsHorizontal, Engine.depthKeys,
      Engine.sweepY, Engine.shiftSubtreeXY, Engine.setXY,
      Engine.collisionPadding, List.insertionSort, List.orderedInsert,
      cexIds, cexDesc, cexState]

theorem sum_take_add_drop (ws : List ℚ) (k : Nat) :
    (ws.take k).sum + (ws.drop k).sum = ws.sum := by
  rw [← List.sum_append, List.take_append_drop]

theorem splitDiff_zero_eq_length (ws : List ℚ) :
    Engine.splitDiff ws 0 = Engine.splitDiff ws ws.length := by
  simp [Engine.splitDiff, abs_sub_comm]

theorem bestSplitGo_spec (ws : List ℚ) :
    ∀ (rest pre : List ℚ) (bd : Option ℚ) (best : Nat),
      ws = pre ++ rest →
      (bd = none → pre = []) →
      (∀ b, bd = some b → Engine.splitDiff ws best = b ∧
        ∀ j, 1 ≤ j → j ≤ pre.length → b ≤ Engine.splitDiff ws j) →
      ∀ j, 1 ≤ j → j ≤ ws.length →
        Engine.splitDiff ws
          (Engine.bestSplitGo ws.sum rest pre.sum bd pre.length best) ≤
          Engine.splitDiff ws j
  | [], pre, bd, best => by
    intro hws hnone hsome j hj1 hj2
    rw [Engine.bestSplitGo]
    match bd with
    | none =>
      have : pre = [] := hnone rfl
      subst this
      simp at hws
      subst hws
      simp at hj2
      omega
    | some b =>
      obtain ⟨hD, hall⟩ := hsome b rfl
      have hlen : ws.length = pre.length := by
        rw [hws]
        simp
      rw [hD]
      exact hall j hj1 (by omega)
  | w :: rest2, pre, bd, best => by
    intro hws hnone hsome j hj1 hj2
    rw [Engine.bestSplitGo]
    have hpre1 : ws = (pre ++ [w]) ++ rest2 := by
      rw [hws]
      simp
    have hsum1 : pre.sum + w = (pre ++ [w]).sum := by
      simp
    have hlen1 : pre.length + 1 = (pre ++ [w]).length := by
      simp
    have htake : ws.take (pre.length + 1) = pre ++ [w] := by
      rw [hpre1]
      rw [List.take_append_of_le_length (by simp)]
      simp
    have hdrop : ws.drop (pre.length + 1) = rest2 := by
      rw [hpre1]
      rw [List.drop_append_of_le_length (by simp)]
      simp
    have hdiff : |pre.sum + w - (ws.sum - (pre.sum + w))| =
        Engine.splitDiff ws (pre.length + 1) := by
      have hsd := sum_take_add_drop ws (pre.length + 1)
      rw [htake, hdrop] at hsd
      rw [Engine.splitDiff, htake, hdrop]
      rw [hsum1]
      have h2 : ws.sum - (pre ++ [w]).sum = rest2.sum := by linarith
      rw [h2]
    split
    · rename_i hlt
      have hrec := bestSplitGo_spec ws rest2 (pre ++ [w]) (some
          (|pre.sum + w - (ws.sum - (pre.sum + w))|)) (pre.length + 1)
        hpre1 (by intro h; simp at h)
        (by
          intro b hb
          injection hb with hb
          subst hb
          constructor
          · exact hdiff.symm
          · intro j' hj'1 hj'2
            rw [← hlen1] at hj'2
            rcases Nat.lt_or_ge j' (pre.length + 1) with hcase | hcase
            · have hj'le : j' ≤ pre.length := by omega
              match bd, hnone, hsome with
              | none, hnone, _ =>
                have : pre = [] := hnone rfl
                subst this
                simp at hj'le
                omega
              | some b0, _, hsome =>
                obtain ⟨_, hall⟩ := hsome b0 rfl
                have hblt : |pre.sum + w - (ws.sum - (pre.sum + w))| < b0 := by
                  have := hlt
                  simp [Engine.ltOptQ] at this
                  exact this
                exact le_of_lt (lt_of_lt_of_le hblt (hall j' hj'1 hj'le))
            · have : j' = pre.length + 1 := by omega
              subst this
              rw [hdiff])
      rw [← hsum1, ← hlen1] at hrec
      exact hrec j hj1 hj2
    · rename_i hge
      match bd, hnone, hsome with
      | none, _, _ =>
        exfalso
        simp [Engine.ltOptQ] at hge
      | some b0, _, hsome =>
        obtain ⟨hD, hall⟩ := hsome b0 rfl
        have hble : b0 ≤ |pre.sum + w - (ws.sum - (pre.sum + w))| := by
          simp [Engine.ltOptQ] at hge
          exact hge
        have hrec := bestSplitGo_spec ws rest2 (pre ++ [w]) (some b0) best
          hpre1 (by intro h; simp at h)
          (by
            intro b hb
            injection hb with hb
            subst hb
            refine ⟨hD, ?_⟩
            intro j' hj'1 hj'2
            rw [← hlen1] at hj'2
            rcases Nat.lt_or_ge j' (pre.length + 1) with hcase | hcase
            · exact hall j' hj'1 (by omega)
            · have : j' = pre.length + 1 := by omega
              subst this
              rw [← hdiff]
              exact hble)
        rw [← hsum1, ← hlen1] at hrec
        exact hrec j hj1 hj2

/-- C1: under the tree paradigm, the children of a root with a nonempty
children list are partitioned into a contiguous right prefix and a left
suffix (each keeping the original relative order), at a split index whose
absolute difference of cumulative subtree heights between the two sides is
minimal over all prefix/suffix splits. -/
theorem tree_split_minimizes (vS : ℚ) (root : LayoutNode)
    (hne : root.children ≠ []) :
    root.children.take (Engine.treeSplit vS root) ++
      root.children.drop (Engine.treeSplit vS root) = root.children ∧
    ∀ k, k ≤ root.children.length →
      Engine.splitDiff (root.children.map (Engine.subtreeHeightWith vS))
        (Engine.treeSplit vS root) ≤
      Engine.splitDiff (root.children.map (Engine.subtreeHeightWith vS)) k := by
  refine ⟨List.take_append_drop _ _, ?_⟩
  intro k hk
  have hmain := bestSplitGo_spec
    (root.children.map (Engine.subtreeHeightWith vS))
    (root.children.map (Engine.subtreeHeightWith vS)) [] none
    ((root.children.length + 1) / 2)
    (by simp) (fun _ => rfl) (by intro b hb; simp at hb)
  have htq : Engine.treeSplit vS root =
      Engine.bestSplitGo (root.children.map (Engine.subtreeHeightWith vS)).sum
        (root.children.map (Engine.subtreeHeightWith vS))
        (List.sum ([] : List ℚ)) none (List.length ([] : List ℚ))
        ((root.children.length + 1) / 2) := by
    rw [Engine.treeSplit]
    simp
  have hlenpos : 1 ≤ (root.children.map (Engine.subtreeHeightWith vS)).length := by
    simp only [List.length_map]
    cases hc : root.children with
    | nil => exact absurd hc hne
    | cons c cs => simp
  rcases Nat.eq_zero_or_pos k with hk0 | hkpos
  · subst hk0
    rw [splitDiff_zero_eq_length]
    rw [htq]
    exact hmain (root.children.map (Engine.subtreeHeightWith vS)).length
      hlenpos (le_refl _)
  · rw [htq]
    exact hmain k hkpos (by simpa using hk)

theorem tree_split_minimizes_witness :
    Engine.splitDiff (witSplitRoot.children.map (Engine.subtreeHeightWith 12))
      (Engine.treeSplit 12 witSplitRoot) ≤
    Engine.splitDiff (witSplitRoot.children.map (Engine.subtreeHeightWith 12)) 2 :=
  (tree_split_minimizes 12 witSplitRoot
    (by simp [witSplitRoot, LayoutNode.children])).2 2
    (by simp [witSplitRoot, LayoutNode.children])

/-- C6 counterexample: at the concrete internal node cexFloorNode (depth 1,
100 by 100, two 400 by 400 leaf children at depth 2, zero horizontal
spacing, so radius 120), the floor actually used by the refined engine's
sector allocation is 3 — the children's arcs dominate — while the claim's
formula, the larger of the node dimension plus margin and 0.3 radians
divided by the radius, gives 1. -/
theorem min_angle_floor_counterexample :
    Engine.minSubtreeAngle cfgZeroSpacing cexFloorNode = 3 ∧
    Spec.claimedAngleFloor cexFloorNode
      (Engine.radiusForDepth cfgZeroSpacing cexFloorNode.data.depth) 20 = 1 ∧
    Engine.minSubtreeAngle cfgZeroSpacing cexFloorNode ≠
      Spec.claimedAngleFloor cexFloorNode
        (Engine.radiusForDepth cfgZeroSpacing cexFloorNode.data.depth) 20 := by
  have h1 : Engine.minSubtreeAngle cfgZeroSpacing cexFloorNode = 3 := by
    rw [cexFloorNode, Engine.minSubtreeAngle]
    norm_num [Engine.minSubtreeAngle, attachMap_eq, Engine.radiusForDepth,
      cfgZeroSpacing, LayoutNode.data]
  have h2 : Spec.claimedAngleFloor cexFloorNode
      (Engine.radiusForDepth cfgZeroSpacing cexFloorNode.data.depth) 20 = 1 := by
    norm_num [Spec.claimedAngleFloor, Engine.radiusForDepth, cfgZeroSpacing,
      cexFloorNode, LayoutNode.data]
  exact ⟨h1, h2, by rw [h1, h2]; norm_num⟩

/-- C6, amended: for a node with nonnegative dimensions at positive radius
the claim's formula is exact for the per-node floor — the 0.3 constant is
redundant under the node's margin, so max(dimension + margin, 0.3)/r equals
(dimension + margin)/r, which is the code's arc for a leaf in the refined
engine (margin 20) and for every node in the simpler engine variant
(margin 16); but in the refined engine an internal node's allocation floor
is the larger of that node arc and the sum of its children's floors, not
the claimed formula alone. -/
theorem min_angle_floor_amended (cfg : MindMapConfig) (n : LayoutNode) (r' : ℚ)
    (hw : 0 ≤ n.data.width) (hh : 0 ≤ n.data.height)
    (hr : 0 < Engine.radiusForDepth cfg n.data.depth) (hr' : 0 < r') :
    (n.children = [] →
      Engine.minSubtreeAngle cfg n =
        Spec.claimedAngleFloor n (Engine.radiusForDepth cfg n.data.depth) 20) ∧
    EngineV1.minAngleForNode n r' = Spec.claimedAngleFloor n r' 16 ∧
    (n.children ≠ [] →
      Engine.minSubtreeAngle cfg n =
        max ((max n.data.width n.data.height + 20) /
              Engine.radiusForDepth cfg n.data.depth)
            ((n.children.map (Engine.minSubtreeAngle cfg)).sum)) := by
  cases n with
  | mk d cs =>
    simp only [LayoutNode.data, LayoutNode.children] at hw hh hr ⊢
    have hdim : 0 ≤ max d.width d.height := le_trans hw (le_max_left _ _)
    have hmax20 : max (max d.width d.height + 20) ((3 : ℚ) / 10) =
        max d.width d.height + 20 := max_eq_left (by linarith)
    have hmax16 : max (max d.width d.height + 16) ((3 : ℚ) / 10) =
        max d.width d.height + 16 := max_eq_left (by linarith)
    refine ⟨?_, ?_, ?_⟩
    · intro hleaf
      subst hleaf
      rw [Engine.minSubtreeAngle, Spec.claimedAngleFloor]
      simp only [LayoutNode.data, List.length_nil]
      rw [if_pos trivial, if_pos hr, hmax20]
    · rw [EngineV1.minAngleForNode, Spec.claimedAngleFloor, if_pos hr']
      simp only [LayoutNode.data]
      rw [hmax16]
    · intro hne
      rw [Engine.minSubtreeAngle]
      rw [if_neg (by simpa using hne), if_pos hr]
      congr 1
      rw [attachMap_eq]

theorem min_angle_floor_amended_witness :
    Engine.minSubtreeAngle cfgZeroSpacing witRadialLeaf =
      Spec.claimedAngleFloor witRadialLeaf
        (Engine.radiusForDepth cfgZeroSpacing witRadialLeaf.data.depth) 20 ∧
    EngineV1.minAngleForNode witRadialLeaf 120 =
      Spec.claimedAngleFloor witRadialLeaf 120 16 :=
  ⟨(min_angle_floor_amended cfgZeroSpacing witRadialLeaf 120
      (by simp [witRadialLeaf, LayoutNode.data])
      (by simp [witRadialLeaf, LayoutNode.data])
      (by norm_num [Engine.radiusForDepth, cfgZeroSpacing, witRadialLeaf,
        LayoutNode.data])
      (by norm_num)).1 rfl,
   (min_angle_floor_amended cfgZeroSpacing witRadialLeaf 120
      (by simp [witRadialLeaf, LayoutNode.data])
      (by simp [witRadialLeaf, LayoutNode.data])
      (by norm_num [Engine.radiusForDepth, cfgZeroSpacing, witRadialLeaf,
        LayoutNode.data])
      (by norm_num)).2.1⟩

theorem setOv_same (m : App.Overrides) (k : Nat) (v : ℚ × ℚ) :
    App.setOv m k v k = some v := by
  simp [App.setOv]

theorem setOv_other (m : App.Overrides) (k : Nat) (v : ℚ × ℚ) (j : Nat)
    (h : j ≠ k) : App.setOv m k v j = m j := by
  simp [App.setOv, h]

theorem dragFold_untouched (nodes : List App.WNode) (prev : App.Overrides)
    (dX dY : ℚ) :
    ∀ (l : List Nat) (acc : App.Overrides) (j : Nat), j ∉ l →
      (l.foldl (App.dragStep nodes prev dX dY) acc) j = acc j
  | [], _, _, _ => rfl
  | c :: l, acc, j, hj => by
    rw [List.foldl_cons]
    rw [dragFold_untouched nodes prev dX dY l _ j (fun h => hj (by simp [h]))]
    rw [App.dragStep]
    cases hlk : App.lookupW nodes c with
    | none => rfl
    | some cm => exact setOv_other acc c _ j (fun h => hj (by simp [h]))

theorem dragFold_written (nodes : List App.WNode) (prev : App.Overrides)
    (dX dY : ℚ) :
    ∀ (l : List Nat) (acc : App.Overrides) (cid : Nat) (cm : App.WNode),
      cid ∈ l → App.lookupW nodes cid = some cm →
      (l.foldl (App.dragStep nodes prev dX dY) acc) cid =
        some ((match prev cid with | some p => p.1 | none => cm.x) + dX,
              (match prev cid with | some p => p.2 | none => cm.y) + dY)
  | [], _, _, _, h, _ => absurd h (List.not_mem_nil _)
  | c :: l, acc, cid, cm, hmem, hlk => by
    rw [List.foldl_cons]
    by_cases hrest : cid ∈ l
    · exact dragFold_written nodes prev dX dY l _ cid cm hrest hlk
    · have hc : cid = c := by
        rcases List.mem_cons.mp hmem with h | h
        · exact h
        · exact absurd h hrest
      subst hc
      rw [dragFold_untouched nodes prev dX dY l _ cid hrest]
      rw [App.dragStep, hlk]
      exact setOv_same acc cid _

theorem curPos_of_lookup (nodes : List App.WNode) (prev : App.Overrides)
    (i : Nat) (cm : App.WNode) (h : App.lookupW nodes i = some cm) :
    App.curPos nodes prev i =
      ((match prev i with | some p => p.1 | none => cm.x),
       (match prev i with | some p => p.2 | none => cm.y)) := by
  rw [App.curPos]
  cases hp : prev i with
  | some p => rfl
  | none => rw [h]

/-- C3: the drag handler is atomic: it returns the prior override map
unchanged exactly when the dragged id is absent from the current layout or
when the crossing guard rejects the candidate map (a sibling-pair
normalized angular difference changes sign against the baseline); when it
accepts, the result is the candidate map, which moves the dragged node to
the pointer position and every descendant by the full delta from its own
current position, and touches no other entry — never a partial
application. -/
theorem handle_node_drag_atomic (atanO : ℚ → ℚ → ℚ) (normO : ℚ → ℚ)
    (nodes : List App.WNode) (desc : Nat → List Nat)
    (orig : Nat → Option (Nat → Option ℚ)) (prev : App.Overrides)
    (nodeId : Nat) (x y : ℚ)
    (hdesc : ∀ cid ∈ desc nodeId, (App.lookupW nodes cid).isSome)
    (hself : nodeId ∉ desc nodeId) :
    (App.lookupW nodes nodeId = none →
      App.handleNodeDrag atanO normO nodes desc orig prev nodeId x y = prev) ∧
    (∀ nm, App.lookupW nodes nodeId = some nm →
      (App.wouldCrossEdges atanO normO nodes orig
          (App.proposedAfterDrag nodes desc prev nodeId x y nm) = true →
        App.handleNodeDrag atanO normO nodes desc orig prev nodeId x y = prev) ∧
      (App.wouldCrossEdges atanO normO nodes orig
          (App.proposedAfterDrag nodes desc prev nodeId x y nm) = false →
        App.handleNodeDrag atanO normO nodes desc orig prev nodeId x y =
          App.proposedAfterDrag nodes desc prev nodeId x y nm ∧
        App.proposedAfterDrag nodes desc prev nodeId x y nm nodeId = some (x, y) ∧
        (∀ cid ∈ desc nodeId,
          App.proposedAfterDrag nodes desc prev nodeId x y nm cid =
            some ((App.curPos nodes prev cid).1 +
                    (x - (App.curPos nodes prev nodeId).1),
                  (App.curPos nodes prev cid).2 +
                    (y - (App.curPos nodes prev nodeId).2))) ∧
        (∀ k, k ≠ nodeId → k ∉ desc nodeId →
          App.proposedAfterDrag nodes desc prev nodeId x y nm k = prev k))) := by
  constructor
  · intro h
    rw [App.handleNodeDrag, h]
  · intro nm hnm
    have hcur := curPos_of_lookup nodes prev nodeId nm hnm
    constructor
    · intro hcross
      rw [App.handleNodeDrag, hnm]
      simp only [hcross, if_true]
    · intro hok
      refine ⟨?_, ?_, ?_, ?_⟩
      · rw [App.handleNodeDrag, hnm]
        simp only [hok]
        rfl
      · rw [App.proposedAfterDrag]
        rw [dragFold_untouched nodes prev _ _ (desc nodeId) _ nodeId hself]
        exact setOv_same prev nodeId _
      · intro cid hcid
        obtain ⟨cm, hcm⟩ := Option.isSome_iff_exists.mp (hdesc cid hcid)
        rw [App.proposedAfterDrag]
        rw [dragFold_written nodes prev _ _ (desc nodeId) _ cid cm hcid hcm]
        rw [curPos_of_lookup nodes prev cid cm hcm, hcur]
      · intro k hk1 hk2
        rw [App.proposedAfterDrag]
        rw [dragFold_untouched nodes prev _ _ (desc nodeId) _ k hk2]
        exact setOv_other prev nodeId _ k hk1

theorem handle_node_drag_atomic_witness :
    App.handleNodeDrag witAtan witNorm witDragNodes witDragDesc witOrig witPrev
        1 10 11 2 =
      some ((App.curPos witDragNodes witPrev 2).1 +
              (10 - (App.curPos witDragNodes witPrev 1).1),
            (App.curPos witDragNodes witPrev 2).2 +
              (11 - (App.curPos witDragNodes witPrev 1).2)) := by
  have h := (handle_node_drag_atomic witAtan witNorm witDragNodes witDragDesc
    witOrig witPrev 1 10 11 (by decide) (by decide)).2 ⟨1, 0, 0, 2, 2, [2]⟩
    rfl |>.2 (by decide)
  rw [h.1]
  exact h.2.2.1 2 (by decide)

theorem radiusForDepth_nonneg (cfg : MindMapConfig)
    (hhs : 0 ≤ cfg.horizontalSpacing) (depth : Nat) :
    0 ≤ Engine.radiusForDepth cfg depth := by
  rw [Engine.radiusForDepth]
  have h1 : (0 : ℚ) ≤ (depth : ℚ) := Nat.cast_nonneg _
  have h2 : (0 : ℚ) ≤ cfg.horizontalSpacing + 120 := by linarith
  have h3 : 0 ≤ (depth : ℚ) * (cfg.horizontalSpacing + 120) := mul_nonneg h1 h2
  split
  · rename_i hd
    have hd1 : (1 : ℚ) ≤ (depth : ℚ) := by
      exact_mod_cast Nat.one_le_iff_ne_zero.mpr (by omega)
    have : 0 ≤ ((depth : ℚ) - 1) * 40 := mul_nonneg (by linarith) (by norm_num)
    linarith
  · linarith

theorem mem_collectNodes_child (d : LayoutData) (cs : List LayoutNode)
    (c : LayoutNode) (hc : c ∈ cs) (m : LayoutNode)
    (hm : m ∈ Engine.collectNodes c) :
    m ∈ Engine.collectNodes (.mk d cs) := by
  rw [Engine.collectNodes, attachMap_eq]
  refine List.mem_cons_of_mem _ ?_
  rw [List.mem_flatten]
  exact ⟨Engine.collectNodes c, List.mem_map_of_mem _ hc, hm⟩

theorem nonnegDims_child (d : LayoutData) (cs : List LayoutNode)
    (h : nonnegDims (.mk d cs)) (c : LayoutNode) (hc : c ∈ cs) :
    nonnegDims c :=
  fun m hm => h m (mem_collectNodes_child d cs c hc m hm)

theorem minSubtreeAngle_nonneg (cfg : MindMapConfig)
    (hhs : 0 ≤ cfg.horizontalSpacing) :
    ∀ (t : LayoutNode), nonnegDims t → 0 ≤ Engine.minSubtreeAngle cfg t := by
  intro t
  induction t using layoutNodeInduction with
  | h d cs ih =>
    intro hdims
    have hself := hdims (.mk d cs) (self_mem_collectNodes _)
    simp only [LayoutNode.data] at hself
    have harc : 0 ≤ (if 0 < Engine.radiusForDepth cfg d.depth then
        (max d.width d.height + 20) / Engine.radiusForDepth cfg d.depth
      else 3 / 10) := by
      split
      · rename_i hr
        apply div_nonneg ?_ (le_of_lt hr)
        have : 0 ≤ max d.width d.height := le_trans hself.1 (le_max_left _ _)
        linarith
      · norm_num
    rw [Engine.minSubtreeAngle]
    split
    · exact harc
    · refine le_trans harc (le_max_left _ _)

theorem minSubtreeAngle_sum_nonneg (cfg : MindMapConfig)
    (hhs : 0 ≤ cfg.horizontalSpacing) (d : LayoutData) (cs : List LayoutNode)
    (hdims : nonnegDims (.mk d cs)) :
    0 ≤ ((cs.attach.map (fun c => Engine.minSubtreeAngle cfg c.1)).sum) := by
  rw [attachMap_eq]
  apply List.sum_nonneg
  intro q hq
  rw [List.mem_map] at hq
  obtain ⟨c, hc, rfl⟩ := hq
  exact minSubtreeAngle_nonneg cfg hhs c (nonnegDims_child d cs hdims c hc)

theorem raw_angles_nonneg (cfg : MindMapConfig) (parent : LayoutNode)
    (s e : ℚ) (hhs : 0 ≤ cfg.horizontalSpacing) (hdims : nonnegDims parent)
    (hse : s ≤ e) :
    ∀ a ∈ Engine.rawAllocatedAngles cfg parent s e, 0 ≤ a := by
  intro a ha
  rw [Engine.rawAllocatedAngles, List.mem_map] at ha
  obtain ⟨c, hc, rfl⟩ := ha
  cases parent with
  | mk d cs =>
    simp only [LayoutNode.children] at hc
    refine le_trans
      (minSubtreeAngle_nonneg cfg hhs c (nonnegDims_child d cs hdims c hc))
      (le_max_right _ _)

theorem sum_map_mul_const (l : List ℚ) (k : ℚ) :
    (l.map (fun a => a * k)).sum = l.sum * k := by
  induction l with
  | nil => simp
  | cons a l ih => simp [ih, add_mul]

theorem alloc_angles_nonneg (cfg : MindMapConfig) (parent : LayoutNode)
    (s e : ℚ) (hhs : 0 ≤ cfg.horizontalSpacing) (hdims : nonnegDims parent)
    (hse : s ≤ e) :
    ∀ a ∈ Engine.allocatedAngles cfg parent s e, 0 ≤ a := by
  intro a ha
  rw [Engine.allocatedAngles] at ha
  split at ha
  · rename_i hscale
    rw [List.mem_map] at ha
    obtain ⟨b, hb, rfl⟩ := ha
    have hb0 := raw_angles_nonneg cfg parent s e hhs hdims hse b hb
    have hsum : 0 < (Engine.rawAllocatedAngles cfg parent s e).sum := by
      linarith
    have : 0 ≤ (e - s) / (Engine.rawAllocatedAngles cfg parent s e).sum :=
      div_nonneg (by linarith) (le_of_lt hsum)
    exact mul_nonneg hb0 this
  · exact raw_angles_nonneg cfg parent s e hhs hdims hse a ha

theorem alloc_angles_sum (cfg : MindMapConfig) (parent : LayoutNode)
    (s e : ℚ) (hhs : 0 ≤ cfg.horizontalSpacing) (hdims : nonnegDims parent)
    (hse : s ≤ e) :
    (Engine.allocatedAngles cfg parent s e).sum ≤ e - s ∧
    ((e - s) < (Engine.rawAllocatedAngles cfg parent s e).sum →
      (Engine.allocatedAngles cfg parent s e).sum = e - s) := by
  rw [Engine.allocatedAngles]
  split
  · rename_i hscale
    have hsum : 0 < (Engine.rawAllocatedAngles cfg parent s e).sum := by
      linarith
    have heq : ((Engine.rawAllocatedAngles cfg parent s e).map
        (fun a => a * ((e - s) / (Engine.rawAllocatedAngles cfg parent s e).sum))).sum
        = e - s := by
      rw [sum_map_mul_const]
      rw [mul_div_assoc']
      rw [mul_comm]
      rw [mul_div_assoc]
      rw [div_self (ne_of_gt hsum)]
      rw [mul_one]
    exact ⟨le_of_eq heq, fun _ => heq⟩
  · rename_i hnoscale
    push_neg at hnoscale
    exact ⟨hnoscale, fun h => absurd h (not_lt.mpr hnoscale)⟩

theorem sectors_spec (as : List ℚ) :
    ∀ (s : ℚ), (∀ a ∈ as, 0 ≤ a) →
      ∀ p ∈ Engine.sectors s as, s ≤ p.1 ∧ p.1 ≤ p.2 ∧ p.2 ≤ s + as.sum := by
  induction as with
  | nil =>
    intro s _ p hp
    rw [Engine.sectors] at hp
    simp at hp
  | cons a as ih =>
    intro s hpos p hp
    have ha : 0 ≤ a := hpos a (by simp)
    have hsum : 0 ≤ as.sum := List.sum_nonneg (fun b hb => hpos b (by simp [hb]))
    rw [Engine.sectors] at hp
    rcases List.mem_cons.mp hp with rfl | hp
    · refine ⟨le_refl _, by simp; linarith, by simp; linarith⟩
    · obtain ⟨h1, h2, h3⟩ := ih (s + a) (fun b hb => hpos b (by simp [hb])) p hp
      refine ⟨by linarith, h2, by simp; linarith⟩

theorem sectors_chain (as : List ℚ) :
    ∀ (s : ℚ), List.Chain' (fun p q => p.2 = q.1) (Engine.sectors s as) := by
  induction as with
  | nil =>
    intro s
    rw [Engine.sectors]
    exact List.chain'_nil
  | cons a as ih =>
    intro s
    rw [Engine.sectors]
    cases as with
    | nil =>
      rw [Engine.sectors]
      simp
    | cons b bs =>
      rw [Engine.sectors]
      refine List.chain'_cons.mpr ⟨rfl, ?_⟩
      have := ih (s + a)
      rw [Engine.sectors] at this
      exact this

theorem alloc_length (cfg : MindMapConfig) (parent : LayoutNode) (s e : ℚ) :
    (Engine.allocatedAngles cfg parent s e).length = parent.children.length := by
  rw [Engine.allocatedAngles, Engine.rawAllocatedAngles]
  split <;> simp

theorem positionChildren_data (cfg : MindMapConfig) (cosO sinO : ℚ → ℚ)
    (c : LayoutNode) (s e : ℚ) :
    (Engine.positionChildren cfg cosO sinO c s e).data = c.data := by
  cases c with
  | mk d cs =>
    rw [Engine.positionChildren]
    rfl

theorem forall₂_mem_left {α β : Type} {R : α → β → Prop} :
    ∀ {l1 : List α} {l2 : List β}, List.Forall₂ R l1 l2 →
      ∀ {x : α}, x ∈ l1 → ∃ y, y ∈ l2 ∧ R x y := by
  intro l1 l2 h
  induction h with
  | nil => intro x hx; simp at hx
  | cons hr _ ih =>
    intro x hx
    rcases List.mem_cons.mp hx with rfl | hx
    · exact ⟨_, by simp, hr⟩
    · obtain ⟨y, hy, hxy⟩ := ih hx
      exact ⟨y, by simp [hy], hxy⟩

theorem placeChildren_spec (cfg : MindMapConfig) (cosO sinO : ℚ → ℚ)
    (hhs : 0 ≤ cfg.horizontalSpacing) :
    ∀ (cs : List LayoutNode) (as : List ℚ) (cur : ℚ),
      (∀ a ∈ as, 0 ≤ a) →
      (∀ c ∈ cs, nonnegDims c) →
      as.length = cs.length →
      (∀ c ∈ cs, ∀ s' e' : ℚ, s' ≤ e' →
        List.Forall₂
          (fun (gc : LayoutNode) (p : ℚ × ℚ) =>
            gc.data.angle = (p.1 + p.2) / 2 ∧
            ∀ m ∈ Engine.collectNodes gc,
              p.1 ≤ m.data.angle ∧ m.data.angle ≤ p.2)
          (Engine.positionChildren cfg cosO sinO c s' e').children
          (Engine.sectors s' (Engine.allocatedAngles cfg c s' e'))) →
      List.Forall₂
        (fun (c : LayoutNode) (p : ℚ × ℚ) =>
          c.data.angle = (p.1 + p.2) / 2 ∧
          ∀ m ∈ Engine.collectNodes c,
            p.1 ≤ m.data.angle ∧ m.data.angle ≤ p.2)
        (Engine.placeChildren cfg cosO sinO cs as cur)
        (Engine.sectors cur as) := by
  intro cs
  induction cs with
  | nil =>
    intro as cur _ _ hlen _
    have : as = [] := List.length_eq_zero.mp (by simpa using hlen)
    subst this
    rw [Engine.placeChildren, Engine.sectors]
    exact List.Forall₂.nil
  | cons c cs2 ih =>
    intro as cur hpos hdims hlen hrec
    cases as with
    | nil => simp at hlen
    | cons a as2 =>
      have ha : 0 ≤ a := hpos a (by simp)
      have hcd : nonnegDims c := hdims c (by simp)
      have hce : cur ≤ cur + a := by linarith
      rw [Engine.placeChildren, Engine.sectors]
      refine List.Forall₂.cons ?_ ?_
      · constructor
        · simp only [LayoutNode.data, List.headD_cons]
        · intro m hm
          rw [Engine.collectNodes, attachMap_eq] at hm
          rcases List.mem_cons.mp hm with rfl | hm
          · simp only [LayoutNode.data, List.headD_cons]
            constructor
            · show cur ≤ (cur + (cur + a)) / 2
              linarith
            · show (cur + (cur + a)) / 2 ≤ cur + a
              linarith
          · rw [List.mem_flatten] at hm
            obtain ⟨sub, hsub, hmsub⟩ := hm
            rw [List.mem_map] at hsub
            obtain ⟨gc, hgc, rfl⟩ := hsub
            simp only [List.headD_cons] at hgc
            have hF := hrec c (by simp) cur (cur + a) hce
            obtain ⟨p, hp, hangle, hcont⟩ := forall₂_mem_left hF hgc
            have hbounds := sectors_spec (Engine.allocatedAngles cfg c cur (cur + a)) cur
              (alloc_angles_nonneg cfg c cur (cur + a) hhs hcd hce) p hp
            have hsum := (alloc_angles_sum cfg c cur (cur + a) hhs hcd hce).1
            obtain ⟨hm1, hm2⟩ := hcont m hmsub
            constructor
            · show cur ≤ m.data.angle
              linarith [hbounds.1]
            · show m.data.angle ≤ cur + a
              linarith [hbounds.2.2]
      · exact ih as2 (cur + a) (fun b hb => hpos b (by simp [hb]))
          (fun x hx => hdims x (by simp [hx])) (by simpa using hlen)
          (fun x hx => hrec x (by simp [hx]))

theorem positionChildren_spec (cfg : MindMapConfig) (cosO sinO : ℚ → ℚ)
    (hhs : 0 ≤ cfg.horizontalSpacing) :
    ∀ (parent : LayoutNode) (s e : ℚ), nonnegDims parent → s ≤ e →
      List.Forall₂
        (fun (c : LayoutNode) (p : ℚ × ℚ) =>
          c.data.angle = (p.1 + p.2) / 2 ∧
          ∀ m ∈ Engine.collectNodes c,
            p.1 ≤ m.data.angle ∧ m.data.angle ≤ p.2)
        (Engine.positionChildren cfg cosO sinO parent s e).children
        (Engine.sectors s (Engine.allocatedAngles cfg parent s e)) := by
  intro parent
  induction parent using layoutNodeInduction with
  | h d cs ih =>
    intro s e hdims hse
    rw [Engine.positionChildren]
    simp only [LayoutNode.children]
    exact placeChildren_spec cfg cosO sinO hhs cs
      (Engine.allocatedAngles cfg (.mk d cs) s e) s
      (alloc_angles_nonneg cfg (.mk d cs) s e hhs hdims hse)
      (fun c hc => nonnegDims_child d cs hdims c hc)
      (by rw [alloc_length]; rfl)
      (fun c hc s' e' hse' => ih c hc s' e' (nonnegDims_child d cs hdims c hc) hse')

/-- C5: in the radial paradigm, for every parent the angular sectors
allocated to its children are consecutive pairwise-disjoint sub-intervals
of the parent's own sector; when the sum of floor-adjusted allocations
exceeds the available span, all allocations are scaled by the same factor
so that the total equals (hence does not exceed) the span; each child is
placed at the midpoint angle of its allocated sector; and each child's
entire subtree is assigned angles within that child's sector bounds. -/
theorem radial_sector_allocation (cfg : MindMapConfig) (cosO sinO : ℚ → ℚ)
    (parent : LayoutNode) (s e : ℚ) (hhs : 0 ≤ cfg.horizontalSpacing)
    (hdims : nonnegDims parent) (hse : s ≤ e) :
    (∀ a ∈ Engine.allocatedAngles cfg parent s e, 0 ≤ a) ∧
    (Engine.allocatedAngles cfg parent s e).sum ≤ e - s ∧
    ((e - s) < (Engine.rawAllocatedAngles cfg parent s e).sum →
      (Engine.allocatedAngles cfg parent s e).sum = e - s) ∧
    (∀ p ∈ Engine.sectors s (Engine.allocatedAngles cfg parent s e),
      s ≤ p.1 ∧ p.1 ≤ p.2 ∧ p.2 ≤ e) ∧
    List.Chain' (fun p q => p.2 = q.1)
      (Engine.sectors s (Engine.allocatedAngles cfg parent s e)) ∧
    List.Forall₂
      (fun (c : LayoutNode) (p : ℚ × ℚ) =>
        c.data.angle = (p.1 + p.2) / 2 ∧
        ∀ m ∈ Engine.collectNodes c,
          p.1 ≤ m.data.angle ∧ m.data.angle ≤ p.2)
      (Engine.positionChildren cfg cosO sinO parent s e).children
      (Engine.sectors s (Engine.allocatedAngles cfg parent s e)) := by
  have hpos := alloc_angles_nonneg cfg parent s e hhs hdims hse
  have hsum := alloc_angles_sum cfg parent s e hhs hdims hse
  refine ⟨hpos, hsum.1, hsum.2, ?_, sectors_chain _ s,
    positionChildren_spec cfg cosO sinO hhs parent s e hdims hse⟩
  intro p hp
  obtain ⟨h1, h2, h3⟩ := sectors_spec (Engine.allocatedAngles cfg parent s e) s hpos p hp
  exact ⟨h1, h2, by linarith [hsum.1]⟩

theorem radial_sector_allocation_witness :
    (∀ a ∈ Engine.allocatedAngles cfgZeroSpacing witRadialParent 0 10, 0 ≤ a) ∧
    (Engine.allocatedAngles cfgZeroSpacing witRadialParent 0 10).sum ≤ 10 - 0 ∧
    ((10 - 0 : ℚ) <
        (Engine.rawAllocatedAngles cfgZeroSpacing witRadialParent 0 10).sum →
      (Engine.allocatedAngles cfgZeroSpacing witRadialParent 0 10).sum = 10 - 0) ∧
    (∀ p ∈ Engine.sectors 0 (Engine.allocatedAngles cfgZeroSpacing witRadialParent 0 10),
      0 ≤ p.1 ∧ p.1 ≤ p.2 ∧ p.2 ≤ 10) ∧
    List.Chain' (fun p q => p.2 = q.1)
      (Engine.sectors 0 (Engine.allocatedAngles cfgZeroSpacing witRadialParent 0 10)) ∧
    List.Forall₂
      (fun (c : LayoutNode) (p : ℚ × ℚ) =>
        c.data.angle = (p.1 + p.2) / 2 ∧
        ∀ m ∈ Engine.collectNodes c,
          p.1 ≤ m.data.angle ∧ m.data.angle ≤ p.2)
      (Engine.positionChildren cfgZeroSpacing witNorm witNorm witRadialParent 0 10).children
      (Engine.sectors 0 (Engine.allocatedAngles cfgZeroSpacing witRadialParent 0 10)) :=
  radial_sector_allocation cfgZeroSpacing witNorm witNorm witRadialParent 0 10
    (by simp [cfgZeroSpacing])
    (by
      intro m hm
      simp only [witRadialParent, witRadialLeaf, Engine.collectNodes,
        attachMap_eq, List.map_cons, List.map_nil, List.flatten] at hm
      simp at hm
      rcases hm with rfl | rfl <;> simp [LayoutNode.data])
    (by norm_num)

end Mindmap
